import Mathlib

/-!
Verification development for the StreamXBot streaming distribution layer
(`Api/services/stream_service.py` and `stream/__init__.py`).

The Python source is shallowly embedded: pure helpers become Lean functions,
the stateful hub / pool / play-progress structures become explicit state
records with step functions, and the cooperative interleaving of the
producer task with consumers becomes an explicit event trace.  Machine
integers are modelled as `Nat`/`Int` (Python integers are unbounded) and
float arithmetic on durations as `ℚ`.
-/

namespace StreamXBot

/-! ## Range parser (`_parse_range_header`, stream_service.py lines 256-276) -/

/-- Python `str.strip()` whitespace set: space, tab, LF, CR, VT, FF. -/
def isPySpace (c : Char) : Bool :=
  c.toNat = 32 || c.toNat = 9 || c.toNat = 10 || c.toNat = 13 || c.toNat = 11 || c.toNat = 12

/-- Python `value.strip()` on a character list. -/
def pyStrip (cs : List Char) : List Char :=
  ((cs.dropWhile isPySpace).reverse.dropWhile isPySpace).reverse

/-- Case folding for the `re.I` flag: lower-case ASCII letters. -/
def charLower (c : Char) : Char :=
  if 65 ≤ c.toNat ∧ c.toNat ≤ 90 then Char.ofNat (c.toNat + 32) else c

/-- Match a pattern prefix case-insensitively; return the remaining input. -/
def matchPrefixCI : List Char → List Char → Option (List Char)
  | [], cs => some cs
  | _ :: _, [] => none
  | p :: ps, c :: cs => if charLower c = charLower p then matchPrefixCI ps cs else none

/-- The regex `^bytes=(\d+)-(\d+)?$` under `re.I`, applied to an already
stripped value: returns the two digit groups on a match (the second group
is `none` when absent). -/
def matchBytesForm (cs : List Char) : Option (List Char × Option (List Char)) :=
  match matchPrefixCI "bytes=".data cs with
  | none => none
  | some rest =>
    let d1 := rest.takeWhile Char.isDigit
    let rest1 := rest.dropWhile Char.isDigit
    if d1 = [] then none
    else
      match rest1 with
      | [] => none
      | c :: rest2 =>
        if c = '-' then
          if rest2 = [] then some (d1, none)
          else if rest2.all Char.isDigit then some (d1, some rest2)
          else none
        else none

/-- `int(...)` on a digit string. -/
def natOfDigits (cs : List Char) : Nat :=
  cs.foldl (fun n c => n * 10 + (c.toNat - 48)) 0

/-- `_parse_range_header` on a raw character list: empty value and
non-matching values give `(None, None)`; a matched `bytes=A-B` with `B < A`
also gives `(None, None)`. -/
def parseRangeList (cs : List Char) : Option Nat × Option Nat :=
  if cs = [] then (none, none)
  else
    match matchBytesForm (pyStrip cs) with
    | none => (none, none)
    | some (d1, od2) =>
      let s := natOfDigits d1
      match od2 with
      | none => (some s, none)
      | some d2 =>
        let e := natOfDigits d2
        if e < s then (none, none) else (some s, some e)

/-- `_parse_range_header` (stream_service.py lines 256-276). -/
def parse_range_header (value : String) : Option Nat × Option Nat :=
  parseRangeList value.data

/-! ## `stream_track` range / status / body-window logic
(stream_service.py lines 882-906 and 982-1006).

Only the pure response-shape computation is embedded: which status code is
chosen, which `Content-Range` / `Content-Length` headers are emitted, and
which byte window the body iterator is asked for (`_stream_range` with
`from_bytes`/`until_bytes` on the 206 path, `_direct_stream` with
`start_byte=0` otherwise).  Client selection and file-id resolution do not
affect these fields. -/

/-- The observable shape of a `stream_track` response: an HTTP error, or a
streamed response with status, optional `Content-Range: bytes a-b/size`,
optional `Content-Length`, and the byte window `[bodyStart, bodyEnd]`
(with `bodyEnd = none` meaning "to end of file") that the body iterator
serves. -/
inductive StreamPlan where
  | err (status : Nat)
  | ok (status : Nat) (contentRange : Option (Nat × Nat × Nat))
      (contentLength : Option Nat) (bodyStart : Nat) (bodyEnd : Option Nat)
deriving DecidableEq, Repr

/-- Range handling of `stream_track` as a function of the raw `Range` header
value and the known total size (`file_size`), following the source lines
882-906 (parsing, `until_bytes`, 416, status, headers) and 982-1006 (choice
of `_stream_range(from_bytes, until_bytes)` versus `_direct_stream(0)`). -/
def stream_track_plan (rangeHeaderRaw : String) (fileSize : Option Nat) : StreamPlan :=
  let rangeHeader := pyStrip rangeHeaderRaw.data
  let pr := parseRangeList rangeHeader
  let startByte := pr.1
  let endByte := pr.2
  let hasRange : Bool := rangeHeader ≠ [] && startByte.isSome
  let fromBytes : Nat := startByte.getD 0
  let untilBytes0 : Option Nat :=
    if hasRange then
      match endByte with
      | some e => some e
      | none =>
        match fileSize with
        | some fs => some (fs - 1)
        | none => none
    else none
  let untilBytes : Option Nat :=
    match untilBytes0, fileSize with
    | some u, some fs => some (min u (fs - 1))
    | u, _ => u
  if fileSize.isSome && hasRange && decide (fileSize.getD 0 ≤ fromBytes) then
    .err 416
  else
    let status : Nat := if hasRange && fileSize.isSome && untilBytes.isSome then 206 else 200
    let contentRange : Option (Nat × Nat × Nat) :=
      match untilBytes, fileSize with
      | some u, some fs => if status = 206 then some (fromBytes, u, fs) else none
      | _, _ => none
    let contentLength : Option Nat :=
      match untilBytes, fileSize with
      | some u, some _ => if status = 206 then some (u - fromBytes + 1) else none
      | _, _ => none
    if status = 206 then .ok 206 contentRange contentLength fromBytes untilBytes
    else .ok 200 none none 0 none

/-! ## Basic facts about stripping and the parser -/

/-- The header grammar named by claim C10, written from the claim's words:
after trimming, the value is exactly `bytes=<digits>-` or
`bytes=<digits>-<digits>`, with the `bytes=` unit case-insensitive
(`de = []` encodes the absent second digit group). -/
def isSimpleRangeForm (value : String) : Prop :=
  ∃ unit ds de : List Char,
    pyStrip value.data = unit ++ ds ++ '-' :: de ∧
    unit.map charLower = "bytes=".data ∧
    ds ≠ [] ∧ ds.all Char.isDigit ∧ de.all Char.isDigit

/-! ## Claims C2 and C10 -/

/-! ## Interval merging (`_merge_ranges` lines 318-352, `_covered_bytes`
lines 355-359) -/

/-- The `for a, b in ranges` loop of `_merge_ranges`: returns the accumulated
`out` list together with the final `start`, `end`, `inserted` values. -/
def mergePass1 : List (Int × Int) → Int → Int → Bool →
    List (Int × Int) × Int × Int × Bool
  | [], s, e, ins => ([], s, e, ins)
  | (a, b) :: rest, s, e, ins =>
    if b + 1 < s then
      let r := mergePass1 rest s e ins
      ((a, b) :: r.1, r.2)
    else if e + 1 < a then
      let r := mergePass1 rest s e true
      (if ins then (a, b) :: r.1 else (s, e) :: (a, b) :: r.1, r.2)
    else
      mergePass1 rest (min s a) (max e b) ins

/-- The loop output together with the trailing
`if not inserted: out.append((start, end))`. -/
def pass1Out (l : List (Int × Int)) (s e : Int) : List (Int × Int) :=
  let r := mergePass1 l s e false
  if r.2.2.2 then r.1 else r.1 ++ [(r.2.1, r.2.2.1)]

/-- `out.sort(key=lambda x: x[0])`: stable insertion step. -/
def insertByFst (x : Int × Int) : List (Int × Int) → List (Int × Int)
  | [] => [x]
  | y :: ys => if x.1 ≤ y.1 then x :: y :: ys else y :: insertByFst x ys

/-- `out.sort(key=lambda x: x[0])` as a stable insertion sort. -/
def sortByFst : List (Int × Int) → List (Int × Int)
  | [] => []
  | x :: xs => insertByFst x (sortByFst xs)

/-- Final coalescing loop of `_merge_ranges` (lines 342-352), with `acc` the
current last entry of `merged`: an entry whose start is at most `acc.2 + 1`
is absorbed into `acc`, otherwise `acc` is emitted and the entry starts a
new accumulator. -/
def mergePass2Go (acc : Int × Int) : List (Int × Int) → List (Int × Int)
  | [] => [acc]
  | (a, b) :: rest =>
    if a ≤ acc.2 + 1 then mergePass2Go (acc.1, max acc.2 b) rest
    else acc :: mergePass2Go (a, b) rest

/-- Final coalescing loop of `_merge_ranges` (lines 342-352). -/
def mergePass2 : List (Int × Int) → List (Int × Int)
  | [] => []
  | x :: xs => mergePass2Go x xs

/-- `_merge_ranges(ranges, start, end)` (stream_service.py lines 318-352). -/
def merge_ranges (ranges : List (Int × Int)) (s e : Int) : List (Int × Int) :=
  if e < s then ranges
  else
    match ranges with
    | [] => [(s, e)]
    | _ :: _ => mergePass2 (sortByFst (pass1Out ranges s e))

/-- `_covered_bytes` (stream_service.py lines 355-359). -/
def covered_bytes (ranges : List (Int × Int)) : Int :=
  ranges.foldl (fun total p => total + max 0 (p.2 - p.1 + 1)) 0

/-- The set of byte positions covered by a range list (`a ≤ n ≤ b` for some
entry). -/
def memRanges (ranges : List (Int × Int)) (n : Int) : Prop :=
  ∃ p ∈ ranges, p.1 ≤ n ∧ n ≤ p.2

/-- Well-formedness maintained by `_merge_ranges`: every interval is proper
and successive intervals are disjoint and non-adjacent, in sorted order. -/
def RangesWF (l : List (Int × Int)) : Prop :=
  (∀ p ∈ l, p.1 ≤ p.2) ∧ List.Chain' (fun p q => p.2 + 1 < q.1) l

/-! ## Play-progress accounting (`_PlayProgress` lines 38-48,
`_seconds_from_bytes` lines 362-370, `_prune_play_progress_locked` lines
373-386, `_update_play_progress` lines 389-439).

The table `_PLAY_PROGRESS` is an insertion-ordered dict; it is modelled as an
association list.  Python floats for times/durations are modelled as `ℚ`.
In-place mutation of the looked-up (or freshly inserted) entry under the
lock collapses to a single final store of the updated record. -/

def PLAY_COUNT_THRESHOLD_SEC : ℚ := 30

def PLAY_PROGRESS_TTL_SEC : ℚ := 1800

def PLAY_PROGRESS_MAX : Nat := 5000

/-- `_PlayProgress` (stream_service.py lines 38-45). -/
structure PlayProgress where
  file_size : Option Int
  duration_sec : Option ℚ
  bitrate_kbps : Option Int
  ranges : List (Int × Int)
  counted : Bool
  last_seen : ℚ
deriving DecidableEq, Repr

/-- `_seconds_from_bytes` (lines 362-370): seconds estimated from covered
bytes, preferring `file_size`/`duration` and falling back to bitrate. -/
def seconds_from_bytes (covered : Int) (fileSize : Option Int)
    (durationSec : Option ℚ) (bitrateKbps : Option Int) : ℚ :=
  let cov : Int := max 0 covered
  let viaSize : Option ℚ :=
    match fileSize, durationSec with
    | some fs, some dur =>
      if 0 < fs ∧ 0 < dur then some ((cov : ℚ) * dur / (fs : ℚ)) else none
    | _, _ => none
  match viaSize with
  | some q => q
  | none =>
    match bitrateKbps with
    | some br =>
      if 0 < br then
        let bytesPerSec : ℚ := (br : ℚ) * 1000 / 8
        if 0 < bytesPerSec then (cov : ℚ) / bytesPerSec else 0
      else 0
    | none => 0

def lookupKey : List (String × PlayProgress) → String → Option PlayProgress
  | [], _ => none
  | (k, v) :: rest, key => if k = key then some v else lookupKey rest key

/-- Store the final state of the mutated (or newly created) entry: an
existing key keeps its position, a new key is appended (dict insertion
order). -/
def setEntry (table : List (String × PlayProgress)) (key : String)
    (p : PlayProgress) : List (String × PlayProgress) :=
  match lookupKey table key with
  | some _ => table.map (fun kv => if kv.1 = key then (key, p) else kv)
  | none => table ++ [(key, p)]

/-- Insertion sort of table entries by `last_seen` (for the capacity purge,
mirroring `sorted(items, key=lambda kv: kv[1].last_seen)`). -/
def insertByLastSeen (x : String × PlayProgress) :
    List (String × PlayProgress) → List (String × PlayProgress)
  | [] => [x]
  | y :: ys => if x.2.last_seen ≤ y.2.last_seen then x :: y :: ys
               else y :: insertByLastSeen x ys

def sortByLastSeen : List (String × PlayProgress) → List (String × PlayProgress)
  | [] => []
  | x :: xs => insertByLastSeen x (sortByLastSeen xs)

/-- `_prune_play_progress_locked` (lines 373-386): drop entries idle longer
than the TTL, then if the table still exceeds the capacity bound drop the
oldest-`last_seen` entries. -/
def prune_play_progress (table : List (String × PlayProgress)) (now : ℚ) :
    List (String × PlayProgress) :=
  if table = [] then table
  else
    let kept := table.filter (fun kv => decide (now - kv.2.last_seen ≤ PLAY_PROGRESS_TTL_SEC))
    if kept.length ≤ PLAY_PROGRESS_MAX then kept
    else
      let victims := ((sortByLastSeen kept).take (kept.length - PLAY_PROGRESS_MAX)).map Prod.fst
      kept.filter (fun kv => decide (kv.1 ∉ victims))

/-- `_update_play_progress` (lines 389-439): prune, look up or create the
key's entry, refresh `last_seen` and any provided metadata, then — unless
already counted — merge the observed range and fire exactly when the
estimated seconds reach the threshold. -/
def update_play_progress (table : List (String × PlayProgress)) (key : String)
    (s e : Int) (fs : Option Int) (dur : Option ℚ) (br : Option Int)
    (now : ℚ) : Bool × List (String × PlayProgress) :=
  let pruned := prune_play_progress table now
  let prog0 : PlayProgress :=
    match lookupKey pruned key with
    | some p => p
    | none => ⟨fs, dur, br, [], false, now⟩
  let prog1 : PlayProgress :=
    { file_size := match fs with | some v => some v | none => prog0.file_size
      duration_sec := match dur with | some v => some v | none => prog0.duration_sec
      bitrate_kbps := match br with | some v => some v | none => prog0.bitrate_kbps
      ranges := prog0.ranges
      counted := prog0.counted
      last_seen := now }
  if prog1.counted then (false, setEntry pruned key prog1)
  else
    let ranges2 := merge_ranges prog1.ranges s e
    let covered := covered_bytes ranges2
    let sec := seconds_from_bytes covered prog1.file_size prog1.duration_sec prog1.bitrate_kbps
    if PLAY_COUNT_THRESHOLD_SEC ≤ sec then
      (true, setEntry pruned key { prog1 with ranges := ranges2, counted := true })
    else
      (false, setEntry pruned key { prog1 with ranges := ranges2 })

/-- One `observe` call: the arguments `_wrap_with_play_count` passes to
`_update_play_progress`, together with the monotonic time of the call. -/
structure ObsCall where
  s : Int
  e : Int
  fs : Option Int
  dur : Option ℚ
  br : Option Int
  now : ℚ

def applyObs (key : String) (table : List (String × PlayProgress)) (c : ObsCall) :
    Bool × List (String × PlayProgress) :=
  update_play_progress table key c.s c.e c.fs c.dur c.br c.now

/-- Number of `True` results over a sequence of `_update_play_progress` calls
on one key. -/
def countFires (key : String) :
    List (String × PlayProgress) → List ObsCall → Nat
  | _, [] => 0
  | table, c :: rest =>
    (if (applyObs key table c).1 then 1 else 0) +
      countFires key (applyObs key table c).2 rest

/-- Successive call times never leave the TTL window (so the key's entry is
never evicted between calls), starting from reference time `t`. -/
def gapsOK : ℚ → List ObsCall → Prop
  | _, [] => True
  | t, c :: rest => (c.now - t ≤ PLAY_PROGRESS_TTL_SEC) ∧ gapsOK c.now rest

/-- `gapsOK` for a whole run; the first call is unconstrained because it
creates the entry. -/
def gapsOKFrom : List ObsCall → Prop
  | [] => True
  | c :: rest => gapsOK c.now rest

/-! ## Distribution hub (`_StreamHub`, stream_service.py lines 55-217).

A chunk is stored with its absolute offset; bytes are modelled as `Nat`.
The hub's mutable fields under its condition-variable critical section
become a state record; `_gc_locked` and the chunk-append step of `_run`
become state functions. -/

abbrev Chunk := Nat × List Nat

structure HubState where
  chunks : List Chunk
  totalWritten : Nat
  done : Bool
  error : Bool
  consumers : List (Nat × Nat)
  lagged : List Nat
deriving DecidableEq, Repr

/-- `_buffer_start` (lines 90-93). -/
def buffer_start (s : HubState) : Nat :=
  match s.chunks with
  | [] => s.totalWritten
  | (off, _) :: _ => off

/-- `min(self._consumers.values(), default=self._total_written)` (line 131). -/
def minConsumerOffset (s : HubState) : Nat :=
  match s.consumers.map Prod.snd with
  | [] => s.totalWritten
  | v :: vs => vs.foldl Nat.min v

/-- The `while self._chunks: ... popleft()` loops of `_gc_locked`: drop
leading chunks whose end offset is at most `m`. -/
def dropChunksBelow (m : Nat) : List Chunk → List Chunk
  | [] => []
  | (off, data) :: rest =>
    if off + data.length ≤ m then dropChunksBelow m rest else (off, data) :: rest

def MAX_STREAM_BUFFER_BYTES : Nat := 25000000

/-- Phase 1 of `_gc_locked` (lines 131-138): drop chunks wholly below the
minimum consumer cursor. -/
def gcPhase1 (s : HubState) : HubState :=
  { s with chunks := dropChunksBelow (minConsumerOffset s) s.chunks }

/-- The forced-eviction condition of `_gc_locked` (lines 140-142): after
phase 1 the retained bytes still exceed the buffer cap. -/
def gcForced (s : HubState) : Prop :=
  MAX_STREAM_BUFFER_BYTES < (gcPhase1 s).totalWritten - buffer_start (gcPhase1 s)

/-- Phase 2 of `_gc_locked` (lines 145-152): additionally drop chunks wholly
below `keep_from = totalWritten - maxBufferBytes`. -/
def gcPhase2 (s : HubState) : HubState :=
  { gcPhase1 s with
    chunks := dropChunksBelow ((gcPhase1 s).totalWritten - MAX_STREAM_BUFFER_BYTES)
      (gcPhase1 s).chunks }

/-- `_gc_locked` (lines 130-160). -/
def gc_locked (s : HubState) : HubState :=
  let s1 := gcPhase1 s
  if s1.totalWritten - buffer_start s1 ≤ MAX_STREAM_BUFFER_BYTES then s1
  else
    let s2 := gcPhase2 s
    if buffer_start s2 ≤ buffer_start s1 then s2
    else
      { s2 with
        lagged := s2.lagged ++
          (s2.consumers.filter (fun kv => kv.2 < buffer_start s2)).map Prod.fst }

/-- The chunk-append step of `_run` (lines 108-117): empty chunks are
skipped; otherwise the chunk is appended at offset `totalWritten`,
`totalWritten` advances, and eviction runs. -/
def appendChunk (s : HubState) (data : List Nat) : HubState :=
  if data = [] then s
  else
    gc_locked { s with
      chunks := s.chunks ++ [(s.totalWritten, data)]
      totalWritten := s.totalWritten + data.length }

/-- Structural invariant of the hub buffer: chunks are contiguous, the last
chunk ends at `totalWritten`, and chunk data is never empty. -/
def ChunksWF (s : HubState) : Prop :=
  List.Chain' (fun a b : Chunk => a.1 + a.2.length = b.1) s.chunks ∧
  (∀ c, s.chunks.getLast? = some c → c.1 + c.2.length = s.totalWritten) ∧
  (∀ c ∈ s.chunks, c.2 ≠ [])

/-- `buffer_start` as a function of the chunk list (with `totalWritten` as
the empty-buffer default). -/
def bufferStartOf (tw : Nat) : List Chunk → Nat
  | [] => tw
  | (off, _) :: _ => off

/-! ## Connection pool (stream/__init__.py lines 130-135 and 307-380).

`multi_clients`/`work_loads` are insertion-ordered dicts keyed by client
user id; they are modelled as an association list with distinct keys.  The
module-level `_rr_cursor`, `Config.MULTI_CLIENTS` flag and
`_primary_user_id` become record fields. -/

structure Pool where
  workLoads : List (Nat × Int)
  rrCursor : Nat
  multiEnabled : Bool
  primary : Option Nat
deriving DecidableEq, Repr

/-- Association-list lookup (dict access by key). -/
def lookupLoad : List (Nat × Int) → Nat → Option Int
  | [], _ => none
  | kv :: rest, c => if kv.1 = c then some kv.2 else lookupLoad rest c

/-- `int(work_loads.get(c) or 0)`. -/
def loadOf (p : Pool) (c : Nat) : Int :=
  (lookupLoad p.workLoads c).getD 0

/-- `work_loads[cid] = v`: replace in place, append if absent. -/
def setLoad (l : List (Nat × Int)) (cid : Nat) (v : Int) : List (Nat × Int) :=
  if l.any (fun kv => kv.1 == cid) then
    l.map (fun kv => if kv.1 = cid then (cid, v) else kv)
  else l ++ [(cid, v)]

/-- `sorted(...)` on client ids (insertion sort). -/
def insertNat (x : Nat) : List Nat → List Nat
  | [] => [x]
  | y :: ys => if x ≤ y then x :: y :: ys else y :: insertNat x ys

def sortNat : List Nat → List Nat
  | [] => []
  | x :: xs => insertNat x (sortNat xs)

/-- `min(work_loads, key=work_loads.get)`: first key of minimal load in
iteration order (dead branch of the source, kept for fidelity). -/
def argminLoad (l : List (Nat × Int)) : Nat :=
  match l with
  | [] => 0
  | kv :: rest => (rest.foldl (fun best x => if x.2 < best.2 then x else best) kv).1

/-- The candidate handles of `acquire_stream_client` (lines 311-313): all
registered handles, excluding the primary in multi-client mode when other
handles exist (falling back to all handles if the exclusion empties the
set). -/
def candidatesOf (p : Pool) : List Nat :=
  let candidates0 := p.workLoads.map Prod.fst
  match p.primary with
  | some pr =>
    if p.multiEnabled ∧ 1 < candidates0.length then
      let f := candidates0.filter (fun c => c ≠ pr)
      if f = [] then candidates0 else f
    else candidates0
  | none => candidates0

/-- `min_load` (line 317). -/
def minLoadOf (p : Pool) : Int :=
  match (candidatesOf p).map (loadOf p) with
  | [] => 0
  | v :: vs => vs.foldl min v

/-- `tied` (line 318): the sorted minimum-load candidates. -/
def tiedOf (p : Pool) : List Nat :=
  sortNat ((candidatesOf p).filter (fun c => loadOf p c = minLoadOf p))

/-- `acquire_stream_client` (stream/__init__.py lines 307-331): least-loaded
selection over the candidate handles, with a round-robin tie-break that
advances the shared cursor; the chosen handle's load is incremented.
Returns `none` when no handles are registered (`RuntimeError` in the
source). -/
def acquire_stream_client (p : Pool) : Option (Nat × Pool) :=
  if candidatesOf p = [] then none
  else
    match tiedOf p with
    | [] =>
      let cid := argminLoad p.workLoads
      some (cid, { p with workLoads := setLoad p.workLoads cid (loadOf p cid + 1) })
    | _ :: _ =>
      let startIdx :=
        if p.rrCursor ∈ tiedOf p then ((tiedOf p).indexOf p.rrCursor + 1) % (tiedOf p).length
        else 0
      let cid := (tiedOf p).getD startIdx 0
      some (cid, { p with
        workLoads := setLoad p.workLoads cid (loadOf p cid + 1)
        rrCursor := cid })

/-- `release_stream_client` (lines 374-380): decrement, floored at 0;
no-op for unknown handles. -/
def release_stream_client (p : Pool) (cid : Nat) : Pool :=
  if p.workLoads.any (fun kv => kv.1 == cid) then
    let v := loadOf p cid - 1
    { p with workLoads := setLoad p.workLoads cid (if v > 0 then v else 0) }
  else p

inductive PoolOp where
  | acq
  | rel (cid : Nat)
deriving DecidableEq, Repr

def runPool (p : Pool) : List PoolOp → Pool
  | [] => p
  | PoolOp.acq :: rest =>
    (match acquire_stream_client p with
     | none => runPool p rest
     | some (_, p2) => runPool p2 rest)
  | PoolOp.rel cid :: rest => runPool (release_stream_client p cid) rest

abbrev NonnegLoads (l : List (Nat × Int)) : Prop := ∀ kv ∈ l, 0 ≤ kv.2

abbrev Balanced (l : List (Nat × Int)) : Prop := ∀ kv ∈ l, ∀ kw ∈ l, kv.2 - kw.2 ≤ 1

abbrev KeysNodup (l : List (Nat × Int)) : Prop := (l.map Prod.fst).Nodup

/-- `_hub_key` (stream_service.py lines 220-223): message-source keys take
priority over file-id keys. -/
def hub_key (fileId : String) (sourceChatId sourceMessageId : Option Int) : String :=
  match sourceChatId, sourceMessageId with
  | some c, some m => "m:" ++ toString c ++ ":" ++ toString m
  | _, _ => "f:" ++ fileId

/-- One hub as seen by the registry: its identity, whether its producer
task is currently running, and how many producer tasks were ever spawned
for it (the fetch-call counter of the claim). -/
structure HubEntry where
  hubId : Nat
  producerRunning : Bool
  spawnCount : Nat
deriving DecidableEq, Repr

/-- The `_STREAM_HUBS` registry (insertion-ordered dict) plus a counter
supplying fresh hub identities. -/
structure Registry where
  hubs : List (String × HubEntry)
  nextId : Nat
deriving DecidableEq, Repr

def emptyRegistry : Registry := { hubs := [], nextId := 0 }

/-- Association-list lookup (dict access by key). -/
def lookupHub : List (String × HubEntry) → String → Option HubEntry
  | [], _ => none
  | kv :: rest, k => if kv.1 = k then some kv.2 else lookupHub rest k

/-- Dict assignment: replace in place, append if absent. -/
def setHub (l : List (String × HubEntry)) (k : String) (v : HubEntry) :
    List (String × HubEntry) :=
  if l.any (fun kv => kv.1 == k) then
    l.map (fun kv => if kv.1 = k then (k, v) else kv)
  else l ++ [(k, v)]

/-- `_StreamHub.start` (lines 76-78): spawn a producer task only when none
is running (`self._producer is None or self._producer.done()`). -/
def startHub (e : HubEntry) : HubEntry :=
  if e.producerRunning then e
  else { e with producerRunning := true, spawnCount := e.spawnCount + 1 }

/-- `_get_or_create_hub` (lines 225-242): under the registry lock, fetch
the hub for the key or create and insert a fresh one, then call
`hub.start()`; returns the hub identity and the new registry. -/
def get_or_create_hub (r : Registry) (k : String) : Nat × Registry :=
  match lookupHub r.hubs k with
  | some e => (e.hubId, { r with hubs := setHub r.hubs k (startHub e) })
  | none =>
    (r.nextId,
     { hubs := setHub r.hubs k (startHub
         { hubId := r.nextId, producerRunning := false, spawnCount := 0 }),
       nextId := r.nextId + 1 })

/-- Registry-level events: a request attaching to key `k` (which runs
`_get_or_create_hub`), or the producer for key `k` finishing (after which
`start()` would respawn). -/
inductive HubEv where
  | attach (k : String)
  | complete (k : String)
deriving DecidableEq, Repr

def evIsAttach : HubEv → Bool
  | .attach _ => true
  | .complete _ => false

def stepHub (r : Registry) : HubEv → Registry
  | .attach k => (get_or_create_hub r k).2
  | .complete k =>
    match lookupHub r.hubs k with
    | some e => { r with hubs := setHub r.hubs k { e with producerRunning := false } }
    | none => r

def runHubs (r : Registry) : List HubEv → Registry
  | [] => r
  | ev :: rest => runHubs (stepHub r ev) rest

/-- Number of producer tasks ever spawned for key `k`. -/
def spawnsOf (r : Registry) (k : String) : Nat :=
  ((lookupHub r.hubs k).map HubEntry.spawnCount).getD 0

/-- In a run that has seen no producer completion, every registered hub
has a running producer and exactly one spawn. -/
def GoodFor (r : Registry) (k : String) : Prop :=
  ∀ e, lookupHub r.hubs k = some e →
    e.producerRunning = true ∧ e.spawnCount = 1

/-- Association-list lookup on the consumers dict. -/
def lookupCons : List (Nat × Nat) → Nat → Option Nat
  | [], _ => none
  | kv :: rest, c => if kv.1 = c then some kv.2 else lookupCons rest c

/-- Dict assignment on the consumers dict: replace in place, append if
absent. -/
def setCons (l : List (Nat × Nat)) (c off : Nat) : List (Nat × Nat) :=
  if l.any (fun kv => kv.1 == c) then
    l.map (fun kv => if kv.1 = c then (c, off) else kv)
  else l ++ [(c, off)]

/-- `self._consumers.pop(cid, None)`. -/
def eraseCons (l : List (Nat × Nat)) (c : Nat) : List (Nat × Nat) :=
  l.filter (fun kv => kv.1 ≠ c)

/-- The chunk scan of `iter_bytes` (lines 186-193): skip chunks ending at
or before the cursor, stop at the first chunk starting past the cursor,
otherwise pick the chunk containing the cursor. -/
def findChunk (offset : Nat) : List Chunk → Option Chunk
  | [] => none
  | c :: rest =>
    if c.1 + c.2.length ≤ offset then findChunk offset rest
    else if offset < c.1 then none
    else some c

/-- How a consumer run ends: normal EOF return, the behind-window signal,
or a producer error re-raised to the consumer. -/
inductive CRes where
  | eof
  | behind
  | errored
deriving DecidableEq, Repr

/-- A hub together with the tracked consumer (id 0): the ghost list of all
bytes the producer appended, the bytes the consumer yielded so far, its
fixed start offset, and its outcome. -/
structure Sys where
  hub : HubState
  produced : List Nat
  yielded : List Nat
  startByte : Nat
  result : Option CRes
deriving DecidableEq, Repr

/-- The `finally` block of `iter_bytes` (lines 210-215) plus the recorded
outcome. -/
def finishWith (σ : Sys) (res : CRes) : Sys :=
  { σ with
    hub := gc_locked { σ.hub with
      consumers := eraseCons σ.hub.consumers 0
      lagged := σ.hub.lagged.filter (fun x => x ≠ 0) }
    result := some res }

/-- One iteration of the `while True` loop of `iter_bytes` (lines 173-208)
for the tracked consumer, executed atomically under the condition lock; a
fruitless iteration (`await self._cond.wait()`) leaves the state
unchanged. -/
def consumerStep (σ : Sys) : Sys :=
  let s := σ.hub
  if 0 ∈ s.lagged then finishWith σ CRes.behind
  else if s.error = true then finishWith σ CRes.errored
  else
    let offset := (lookupCons s.consumers 0).getD σ.startByte
    if offset < buffer_start s ∧ 0 < s.totalWritten then finishWith σ CRes.behind
    else if s.done = true ∧ s.totalWritten ≤ offset then finishWith σ CRes.eof
    else
      match findChunk offset s.chunks with
      | none => σ
      | some c =>
        let out := c.2.drop (offset - c.1)
        { σ with
          hub := gc_locked { s with
            consumers := setCons s.consumers 0 (offset + out.length) }
          yielded := σ.yielded ++ out }

/-- Interleaved events: a producer chunk arrival, a producer failure, the
producer reaching EOF, a loop iteration of the tracked consumer, and cursor
updates or departure of some other consumer. -/
inductive SysEv where
  | append (data : List Nat)
  | fail
  | finish
  | step
  | setOther (oid off : Nat)
  | dropOther (oid : Nat)
deriving DecidableEq, Repr

def stepSys (σ : Sys) : SysEv → Sys
  | .append data =>
    if σ.hub.done = true ∨ σ.hub.error = true ∨ data = [] then σ
    else { σ with hub := appendChunk σ.hub data, produced := σ.produced ++ data }
  | .fail =>
    if σ.hub.done = true then σ
    else { σ with hub := { σ.hub with error := true, done := true } }
  | .finish =>
    if σ.hub.done = true then σ
    else { σ with hub := { σ.hub with done := true } }
  | .step => if σ.result = none then consumerStep σ else σ
  | .setOther oid off =>
    if oid = 0 then σ
    else { σ with hub := gc_locked { σ.hub with
      consumers := setCons σ.hub.consumers oid off } }
  | .dropOther oid =>
    if oid = 0 then σ
    else { σ with hub := gc_locked { σ.hub with
      consumers := eraseCons σ.hub.consumers oid
      lagged := σ.hub.lagged.filter (fun x => x ≠ oid) } }

def runSys (σ : Sys) : List SysEv → Sys
  | [] => σ
  | ev :: rest => runSys (stepSys σ ev) rest

/-- A fresh hub with the tracked consumer just registered at `start`
(`iter_bytes` lines 162-168 with `max(0, int(start_byte))` already a
natural number). -/
def initSys (start : Nat) : Sys :=
  { hub := { chunks := [], totalWritten := 0, done := false, error := false,
             consumers := [(0, start)], lagged := [] },
    produced := [], yielded := [], startByte := start, result := none }

/-- Every buffered chunk is the slice of the produced stream at its
offset. -/
def SliceWF (produced : List Nat) (chunks : List Chunk) : Prop :=
  ∀ c ∈ chunks, c.2 = (produced.drop c.1).take c.2.length ∧
    c.1 + c.2.length ≤ produced.length

/-- Run invariant for the tracked consumer. -/
def SysInv (σ : Sys) : Prop :=
  σ.hub.totalWritten = σ.produced.length ∧
  SliceWF σ.produced σ.hub.chunks ∧
  (∀ off, lookupCons σ.hub.consumers 0 = some off →
    off = σ.startByte + σ.yielded.length ∧
    σ.yielded = (σ.produced.drop σ.startByte).take σ.yielded.length ∧
    (σ.startByte + σ.yielded.length ≤ σ.produced.length ∨ σ.yielded = [])) ∧
  (σ.result = none → (lookupCons σ.hub.consumers 0).isSome = true) ∧
  (σ.result = some CRes.eof →
    σ.yielded = σ.produced.drop σ.startByte ∧ σ.hub.done = true)

/-! ## Theorems -/

theorem dropWhile_self_idem {α : Type} (p : α → Bool) (l : List α) :
    (l.dropWhile p).dropWhile p = l.dropWhile p := by
  rw [List.dropWhile_eq_self_iff]
  intro hl
  exact List.dropWhile_get_zero_not (p := p) (l := l) hl

theorem dropWhile_append_self {α : Type} (p : α → Bool) (l t : List α)
    (h : (l ++ t).dropWhile p = l ++ t) : l.dropWhile p = l := by
  cases l with
  | nil => simp
  | cons a l' =>
    simp only [List.cons_append, List.dropWhile_cons] at h ⊢
    by_cases hpa : p a = true
    · exfalso
      rw [if_pos hpa] at h
      have hle := (List.dropWhile_sublist (l := l' ++ t) p).length_le
      rw [h] at hle
      simp at hle
    · rw [if_neg hpa]

theorem pyStrip_idem (cs : List Char) : pyStrip (pyStrip cs) = pyStrip cs := by
  unfold pyStrip
  generalize hL : cs.dropWhile isPySpace = L
  have hLfix : L.dropWhile isPySpace = L := by
    rw [← hL]
    exact dropWhile_self_idem _ _
  have hATL : (L.reverse.dropWhile isPySpace).reverse ++
      (L.reverse.takeWhile isPySpace).reverse = L := by
    rw [← List.reverse_append, List.takeWhile_append_dropWhile, List.reverse_reverse]
  have hA : ((L.reverse.dropWhile isPySpace).reverse).dropWhile isPySpace
      = (L.reverse.dropWhile isPySpace).reverse := by
    apply dropWhile_append_self isPySpace _ ((L.reverse.takeWhile isPySpace).reverse)
    rw [hATL]
    exact hLfix
  rw [hA, List.reverse_reverse, dropWhile_self_idem]

theorem matchBytesForm_nil : matchBytesForm [] = none := by
  simp [matchBytesForm, matchPrefixCI]

theorem parseRangeList_pyStrip (cs : List Char) :
    parseRangeList (pyStrip cs) = parseRangeList cs := by
  unfold parseRangeList
  by_cases hc : cs = []
  · subst hc
    simp [pyStrip]
  · rw [if_neg hc]
    by_cases hs : pyStrip cs = []
    · rw [if_pos hs, hs, matchBytesForm_nil]
    · rw [if_neg hs, pyStrip_idem]

theorem matchPrefixCI_some {ps cs rest : List Char}
    (h : matchPrefixCI ps cs = some rest) :
    ∃ pre, cs = pre ++ rest ∧ pre.map charLower = ps.map charLower := by
  induction ps generalizing cs with
  | nil =>
    simp only [matchPrefixCI, Option.some.injEq] at h
    exact ⟨[], by rw [h]; rfl, rfl⟩
  | cons p ps ih =>
    cases cs with
    | nil => simp [matchPrefixCI] at h
    | cons c cs' =>
      simp only [matchPrefixCI] at h
      by_cases hcp : charLower c = charLower p
      · rw [if_pos hcp] at h
        obtain ⟨pre, hcs, hmap⟩ := ih h
        exact ⟨c :: pre, by simp [hcs], by simp [hmap, hcp]⟩
      · rw [if_neg hcp] at h
        exact absurd h (by simp)

theorem all_takeWhile {α : Type} (p : α → Bool) (l : List α) :
    (l.takeWhile p).all p = true := by
  rw [List.all_eq_true]
  intro x hx
  exact List.mem_takeWhile_imp hx

theorem matchBytesForm_shape {cs d1 : List Char} {od2 : Option (List Char)}
    (h : matchBytesForm cs = some (d1, od2)) :
    ∃ unit de, cs = unit ++ d1 ++ '-' :: de ∧
      unit.map charLower = "bytes=".data ∧
      d1 ≠ [] ∧ d1.all Char.isDigit ∧ de.all Char.isDigit := by
  unfold matchBytesForm at h
  cases hm : matchPrefixCI "bytes=".data cs with
  | none => rw [hm] at h; exact absurd h (by simp)
  | some rest =>
    rw [hm] at h
    simp only at h
    obtain ⟨pre, hcs, hmap⟩ := matchPrefixCI_some hm
    have hmap' : pre.map charLower = "bytes=".data := by
      rw [hmap]
      decide
    by_cases hd : rest.takeWhile Char.isDigit = []
    · rw [if_pos hd] at h; exact absurd h (by simp)
    · rw [if_neg hd] at h
      have hsplit : rest.takeWhile Char.isDigit ++ rest.dropWhile Char.isDigit = rest :=
        List.takeWhile_append_dropWhile _ _
      cases hr : rest.dropWhile Char.isDigit with
      | nil => rw [hr] at h; exact absurd h (by simp)
      | cons c rest2 =>
        rw [hr] at h
        rw [hr] at hsplit
        simp only [] at h
        by_cases hc : c = '-'
        · rw [if_pos hc] at h
          subst hc
          by_cases h2 : rest2 = []
          · rw [if_pos h2] at h
            subst h2
            obtain ⟨hd1, hod⟩ : rest.takeWhile Char.isDigit = d1 ∧ (none : Option (List Char)) = od2 := by
              simpa using h
            subst hd1
            refine ⟨pre, [], ?_, hmap', hd, all_takeWhile _ _, rfl⟩
            rw [hcs, List.append_assoc]
            exact congrArg (fun l => pre ++ l) hsplit.symm
          · rw [if_neg h2] at h
            by_cases h3 : rest2.all Char.isDigit
            · rw [if_pos h3] at h
              obtain ⟨hd1, hod⟩ : rest.takeWhile Char.isDigit = d1 ∧ (some rest2 : Option (List Char)) = od2 := by
                simpa using h
              subst hd1
              refine ⟨pre, rest2, ?_, hmap', hd, all_takeWhile _ _, h3⟩
              rw [hcs, List.append_assoc]
              exact congrArg (fun l => pre ++ l) hsplit.symm
            · rw [if_neg h3] at h
              exact absurd h (by simp)
        · rw [if_neg hc] at h
          exact absurd h (by simp)

theorem form_of_parse_ne {v : String} (h : parse_range_header v ≠ (none, none)) :
    isSimpleRangeForm v := by
  unfold parse_range_header parseRangeList at h
  by_cases hv : v.data = []
  · rw [if_pos hv] at h
    exact absurd rfl h
  · rw [if_neg hv] at h
    cases hm : matchBytesForm (pyStrip v.data) with
    | none => rw [hm] at h; exact absurd rfl h
    | some x =>
      obtain ⟨d1, od2⟩ := x
      obtain ⟨unit, de, hcs, hunit, hne, hd1, hde⟩ := matchBytesForm_shape hm
      exact ⟨unit, d1, de, hcs, hunit, hne, hd1, hde⟩

theorem pyStrip_ne_nil_of_parse {cs : List Char} {a : Nat} {ob : Option Nat}
    (h : parseRangeList cs = (some a, ob)) : pyStrip cs ≠ [] := by
  intro hnil
  unfold parseRangeList at h
  by_cases hc : cs = []
  · rw [if_pos hc] at h
    simp at h
  · rw [if_neg hc, hnil, matchBytesForm_nil] at h
    simp at h

/-- C2 counterexample: for `Range: bytes=500-` with unknown total size the
code does return status 200 with no `Content-Range`, but the body iterator
is `_direct_stream(start_byte=0)` — the body starts at byte 0, not at byte
500 as the claim states. -/
theorem C2_counterexample :
    stream_track_plan "bytes=500-" none = StreamPlan.ok 200 none none 0 none ∧
    ¬ ∃ cl be, stream_track_plan "bytes=500-" none = StreamPlan.ok 200 none cl 500 be := by
  have hplan : stream_track_plan "bytes=500-" none = StreamPlan.ok 200 none none 0 none := by
    decide
  refine ⟨hplan, ?_⟩
  rintro ⟨cl, be, h⟩
  rw [hplan] at h
  simp at h

/-- C2 (amended): a request with `Range: bytes=A-` (open-ended, any start) on
a resource of unknown total size gets status 200, no `Content-Range`, no
`Content-Length`, and a body that starts at byte 0 (the full file) — the
range start is ignored on this path. -/
theorem C2_amended (hdr : String) (a : Nat)
    (h : parse_range_header hdr = (some a, none)) :
    stream_track_plan hdr none = StreamPlan.ok 200 none none 0 none := by
  have hne := @pyStrip_ne_nil_of_parse hdr.data a none h
  unfold parse_range_header at h
  simp only [stream_track_plan, parseRangeList_pyStrip, h]
  simp [hne]

/-- Witness for `C2_amended` at the claim's own scenario `bytes=500-`. -/
theorem C2_amended_witness :
    parse_range_header "bytes=500-" = (some 500, none) ∧
    stream_track_plan "bytes=500-" none = StreamPlan.ok 200 none none 0 none :=
  ⟨by decide, C2_amended "bytes=500-" 500 (by decide)⟩

/-- C10: `_parse_range_header` returns `(None, None)` for every header value
that is not exactly of the form `bytes=<digits>-` or `bytes=<digits>-<digits>`
after trimming (unit case-insensitive) — including the suffix range
`bytes=-500` and the multi-range header `bytes=0-1,5-6` — and `stream_track`
then treats the request as having no Range header: full body, status 200, no
`Content-Range`, never 206 or 416. -/
theorem C10_parse_rejects_and_full_body :
    (∀ v : String, ¬ isSimpleRangeForm v → parse_range_header v = (none, none)) ∧
    parse_range_header "bytes=-500" = (none, none) ∧
    parse_range_header "bytes=0-1,5-6" = (none, none) ∧
    (∀ (v : String) (fs : Option Nat), parse_range_header v = (none, none) →
      stream_track_plan v fs = StreamPlan.ok 200 none none 0 none) := by
  refine ⟨?_, by decide, by decide, ?_⟩
  · intro v hform
    by_contra h
    exact hform (form_of_parse_ne h)
  · intro v fs hp
    unfold parse_range_header at hp
    simp only [stream_track_plan, parseRangeList_pyStrip, hp]
    simp

/-- Witness for `C10_parse_rejects_and_full_body` at the suffix-range header
`bytes=-500` (not of the simple form) with a known file size. -/
theorem C10_witness :
    parse_range_header "bytes=-500" = (none, none) ∧
    stream_track_plan "bytes=-500" (some 100) = StreamPlan.ok 200 none none 0 none := by
  have hform : ¬ isSimpleRangeForm "bytes=-500" := by
    rintro ⟨unit, ds, de, hsplit, hunit, hne, hds, -⟩
    have hlen : unit.length = 6 := by
      have h1 := congrArg List.length hunit
      simpa using h1
    have h4 : unit ++ ds ++ '-' :: de = "bytes=-500".data := by
      rw [← hsplit]
      decide
    rw [List.append_assoc] at h4
    have h5 := congrArg (List.drop unit.length) h4
    rw [List.drop_left] at h5
    rw [hlen] at h5
    have h6 : List.drop 6 ("bytes=-500".data) = '-' :: "500".data := by decide
    rw [h6] at h5
    cases ds with
    | nil => exact hne rfl
    | cons c ds' =>
      have hc : c = '-' := by
        have h7 := congrArg List.head? h5
        simp at h7
        exact h7
      subst hc
      have hdig : Char.isDigit '-' = true := by
        have hall := List.all_eq_true.mp hds
        exact hall '-' (by simp)
      simp at hdig
  exact ⟨C10_parse_rejects_and_full_body.1 "bytes=-500" hform,
    C10_parse_rejects_and_full_body.2.2.2 "bytes=-500" (some 100)
      (C10_parse_rejects_and_full_body.1 "bytes=-500" hform)⟩

theorem RangesWF_tail {x : Int × Int} {l : List (Int × Int)}
    (h : RangesWF (x :: l)) : RangesWF l :=
  ⟨fun p hp => h.1 p (List.mem_cons_of_mem _ hp), (List.chain'_cons'.mp h.2).2⟩

theorem RangesWF_lb {a b : Int} {l : List (Int × Int)}
    (h : RangesWF ((a, b) :: l)) : ∀ p ∈ l, b + 1 < p.1 := by
  induction l generalizing a b with
  | nil => intro p hp; simp at hp
  | cons q rest ih =>
    intro p hp
    obtain ⟨c, d⟩ := q
    have hbc : b + 1 < c := (List.chain'_cons.mp h.2).1
    rcases List.mem_cons.mp hp with hcd | hrest
    · rw [hcd]; exact hbc
    · have hcd_wf : RangesWF ((c, d) :: rest) := RangesWF_tail h
      have hcle : c ≤ d := hcd_wf.1 (c, d) (List.mem_cons_self _ _)
      have := ih hcd_wf p hrest
      omega

theorem memRanges_cons {x : Int × Int} {l : List (Int × Int)} {n : Int} :
    memRanges (x :: l) n ↔ (x.1 ≤ n ∧ n ≤ x.2) ∨ memRanges l n := by
  unfold memRanges
  constructor
  · rintro ⟨p, hp, h⟩
    rcases List.mem_cons.mp hp with rfl | hl
    · exact Or.inl h
    · exact Or.inr ⟨p, hl, h⟩
  · rintro (h | ⟨p, hl, h⟩)
    · exact ⟨x, List.mem_cons_self _ _, h⟩
    · exact ⟨p, List.mem_cons_of_mem _ hl, h⟩

theorem mergePass1_all_after (l : List (Int × Int)) (s e : Int)
    (h : ∀ p ∈ l, ¬(p.2 + 1 < s) ∧ e + 1 < p.1) :
    mergePass1 l s e true = (l, s, e, true) := by
  induction l with
  | nil => rfl
  | cons x rest ih =>
    obtain ⟨a, b⟩ := x
    have hx := h (a, b) (List.mem_cons_self _ _)
    simp only [mergePass1]
    rw [if_neg hx.1, if_pos hx.2, ih (fun p hp => h p (List.mem_cons_of_mem _ hp))]
    simp

theorem pass1Out_spec (l : List (Int × Int)) (s e : Int)
    (hwf : RangesWF l) (hse : s ≤ e) :
    RangesWF (pass1Out l s e) ∧
    (∀ p ∈ pass1Out l s e, s ≤ p.1 ∨ ∃ q ∈ l, q.1 ≤ p.1) ∧
    (∀ n : Int, memRanges (pass1Out l s e) n ↔ memRanges l n ∨ (s ≤ n ∧ n ≤ e)) := by
  induction l generalizing s e with
  | nil =>
    refine ⟨⟨?_, ?_⟩, ?_, ?_⟩
    · intro p hp
      simp [pass1Out, mergePass1] at hp
      subst hp
      exact hse
    · simp [pass1Out, mergePass1]
    · intro p hp
      simp [pass1Out, mergePass1] at hp
      subst hp
      exact Or.inl (le_refl _)
    · intro n
      simp [pass1Out, mergePass1, memRanges]
  | cons x rest ih =>
    obtain ⟨a, b⟩ := x
    have hab : a ≤ b := hwf.1 _ (List.mem_cons_self _ _)
    have hrest : RangesWF rest := RangesWF_tail hwf
    have hlb := RangesWF_lb hwf
    by_cases h1 : b + 1 < s
    · have key : pass1Out ((a, b) :: rest) s e = (a, b) :: pass1Out rest s e := by
        simp only [pass1Out, mergePass1, if_pos h1]
        cases hins : (mergePass1 rest s e false).2.2.2 <;> simp [hins]
      obtain ⟨ihwf, ihlb, ihmem⟩ := ih s e hrest hse
      have hhead : ∀ p ∈ pass1Out rest s e, b + 1 < p.1 := by
        intro p hp
        rcases ihlb p hp with hs | ⟨q, hq, hle⟩
        · omega
        · have := hlb q hq
          omega
      rw [key]
      refine ⟨⟨?_, ?_⟩, ?_, ?_⟩
      · intro p hp
        rcases List.mem_cons.mp hp with rfl | hl
        · exact hab
        · exact ihwf.1 p hl
      · rw [List.chain'_cons']
        refine ⟨?_, ihwf.2⟩
        intro y hy
        exact hhead y (List.mem_of_mem_head? hy)
      · intro p hp
        rcases List.mem_cons.mp hp with rfl | hl
        · exact Or.inr ⟨(a, b), List.mem_cons_self _ _, le_refl _⟩
        · rcases ihlb p hl with hs | ⟨q, hq, hle⟩
          · exact Or.inl hs
          · exact Or.inr ⟨q, List.mem_cons_of_mem _ hq, hle⟩
      · intro n
        rw [memRanges_cons, ihmem n, memRanges_cons]
        tauto
    · by_cases h2 : e + 1 < a
      · have hresteq : mergePass1 rest s e true = (rest, s, e, true) := by
          apply mergePass1_all_after
          intro p hp
          have hlbp := hlb p hp
          have hprop := hrest.1 p hp
          constructor <;> omega
        have key : pass1Out ((a, b) :: rest) s e = (s, e) :: (a, b) :: rest := by
          simp only [pass1Out, mergePass1, if_neg h1, if_pos h2, hresteq]
          simp
        rw [key]
        refine ⟨⟨?_, ?_⟩, ?_, ?_⟩
        · intro p hp
          rcases List.mem_cons.mp hp with rfl | hl
          · exact hse
          · exact hwf.1 p hl
        · rw [List.chain'_cons]
          exact ⟨h2, hwf.2⟩
        · intro p hp
          rcases List.mem_cons.mp hp with rfl | hl
          · exact Or.inl (le_refl _)
          · exact Or.inr ⟨p, hl, le_refl _⟩
        · intro n
          rw [memRanges_cons]
          tauto
      · have key : pass1Out ((a, b) :: rest) s e = pass1Out rest (min s a) (max e b) := by
          simp only [pass1Out, mergePass1, if_neg h1, if_neg h2]
        have hminmax : min s a ≤ max e b :=
          le_trans (min_le_left _ _) (le_trans hse (le_max_left _ _))
        obtain ⟨ihwf, ihlb, ihmem⟩ := ih (min s a) (max e b) hrest hminmax
        rw [key]
        refine ⟨ihwf, ?_, ?_⟩
        · intro p hp
          rcases ihlb p hp with hmin | ⟨q, hq, hle⟩
          · rcases min_cases s a with ⟨heq, -⟩ | ⟨heq, -⟩
            · exact Or.inl (by omega)
            · exact Or.inr ⟨(a, b), List.mem_cons_self _ _, by omega⟩
          · exact Or.inr ⟨q, List.mem_cons_of_mem _ hq, hle⟩
        · intro n
          rw [ihmem n, memRanges_cons]
          have hiff : (min s a ≤ n ∧ n ≤ max e b) ↔
              ((a ≤ n ∧ n ≤ b) ∨ (s ≤ n ∧ n ≤ e)) := by
            rcases min_cases s a with ⟨hmin, hmin2⟩ | ⟨hmin, hmin2⟩ <;>
              rcases max_cases e b with ⟨hmax, hmax2⟩ | ⟨hmax, hmax2⟩ <;>
              rw [hmin, hmax] <;> omega
          rw [hiff]
          tauto

theorem RangesWF_keysSorted {l : List (Int × Int)} (h : RangesWF l) :
    List.Chain' (fun p q : Int × Int => p.1 ≤ q.1) l := by
  induction l with
  | nil => simp
  | cons x xs ih =>
    rw [List.chain'_cons']
    refine ⟨?_, ih (RangesWF_tail h)⟩
    intro y hy
    have hmem := List.mem_of_mem_head? hy
    have hrel : x.2 + 1 < y.1 := by
      rcases xs with - | ⟨z, zs⟩
      · simp at hy
      · have hzrel := (List.chain'_cons.mp h.2).1
        simp at hy
        exact hy ▸ hzrel
    have hx : x.1 ≤ x.2 := h.1 x (List.mem_cons_self _ _)
    omega

theorem sortByFst_sorted_id (l : List (Int × Int))
    (h : List.Chain' (fun p q : Int × Int => p.1 ≤ q.1) l) : sortByFst l = l := by
  induction l with
  | nil => rfl
  | cons x xs ih =>
    rw [sortByFst, ih (List.chain'_cons'.mp h).2]
    cases xs with
    | nil => rfl
    | cons y ys =>
      have hxy : x.1 ≤ y.1 := (List.chain'_cons.mp h).1
      simp [insertByFst, hxy]

theorem mergePass2Go_wf_id (acc : Int × Int) (l : List (Int × Int))
    (h : RangesWF (acc :: l)) : mergePass2Go acc l = acc :: l := by
  induction l generalizing acc with
  | nil => rfl
  | cons y ys ih =>
    obtain ⟨a, b⟩ := y
    have hrel : acc.2 + 1 < a := (List.chain'_cons.mp h.2).1
    simp only [mergePass2Go]
    rw [if_neg (by omega : ¬ a ≤ acc.2 + 1), ih _ (RangesWF_tail h)]

theorem mergePass2_wf_id (l : List (Int × Int)) (h : RangesWF l) :
    mergePass2 l = l := by
  cases l with
  | nil => rfl
  | cons x xs => exact mergePass2Go_wf_id x xs h

theorem merge_ranges_eq_pass1Out {l : List (Int × Int)} {s e : Int}
    (hwf : RangesWF l) (hse : s ≤ e) :
    merge_ranges l s e = pass1Out l s e := by
  unfold merge_ranges
  rw [if_neg (by omega : ¬ e < s)]
  cases l with
  | nil => simp [pass1Out, mergePass1]
  | cons x xs =>
    have h := pass1Out_spec (x :: xs) s e hwf hse
    rw [sortByFst_sorted_id _ (RangesWF_keysSorted h.1), mergePass2_wf_id _ h.1]

/-- C8: covered-interval merging is order-independent.  Concretely, observing
`[0,999]` then `[1000,1999]` yields the single merged interval `[0,1999]`,
the same as observing `[500,1499]`, `[0,999]`, `[1000,1999]`; in general
`_merge_ranges` maps a sorted list of disjoint non-adjacent intervals to a
sorted list of disjoint non-adjacent intervals whose covered byte set is the
union of the old set with the observed range — so the covered set is the
union of all observed ranges, regardless of observation order. -/
theorem C8_merge_order_independent :
    (merge_ranges (merge_ranges [] 0 999) 1000 1999 = [(0, 1999)] ∧
     merge_ranges (merge_ranges (merge_ranges [] 500 1499) 0 999) 1000 1999 = [(0, 1999)]) ∧
    (∀ (l : List (Int × Int)) (s e : Int), RangesWF l → s ≤ e →
      RangesWF (merge_ranges l s e) ∧
      ∀ n : Int, memRanges (merge_ranges l s e) n ↔ memRanges l n ∨ (s ≤ n ∧ n ≤ e)) := by
  refine ⟨⟨by decide, by decide⟩, ?_⟩
  intro l s e hwf hse
  rw [merge_ranges_eq_pass1Out hwf hse]
  have h := pass1Out_spec l s e hwf hse
  exact ⟨h.1, h.2.2⟩

/-- Witness for `C8_merge_order_independent` at the claim's own example. -/
theorem C8_witness :
    RangesWF [((0 : Int), (999 : Int))] ∧
    RangesWF (merge_ranges [((0 : Int), (999 : Int))] 1000 1999) := by
  have hwf : RangesWF [((0 : Int), (999 : Int))] := by
    constructor
    · intro p hp
      simp at hp
      subst hp
      norm_num
    · simp
  exact ⟨hwf, (C8_merge_order_independent.2 [((0 : Int), (999 : Int))] 1000 1999 hwf
    (by norm_num)).1⟩

theorem prune_single (key : String) (q : PlayProgress) (now : ℚ)
    (h : now - q.last_seen ≤ PLAY_PROGRESS_TTL_SEC) :
    prune_play_progress [(key, q)] now = [(key, q)] := by
  simp only [prune_play_progress]
  rw [if_neg (by simp)]
  simp [List.filter, h, PLAY_PROGRESS_MAX]

theorem update_single (key : String) (q : PlayProgress) (s e : Int)
    (fs : Option Int) (dur : Option ℚ) (br : Option Int) (now : ℚ)
    (h : now - q.last_seen ≤ PLAY_PROGRESS_TTL_SEC) :
    ∃ b p, update_play_progress [(key, q)] key s e fs dur br now = (b, [(key, p)]) ∧
      p.last_seen = now ∧
      (q.counted = true → b = false ∧ p.counted = true) ∧
      (q.counted = false → b = p.counted) := by
  have hlk : lookupKey [(key, q)] key = some q := by simp [lookupKey]
  simp only [update_play_progress, prune_single key q now h, hlk]
  have hset : ∀ p : PlayProgress, setEntry [(key, q)] key p = [(key, p)] := by
    intro p
    simp [setEntry, lookupKey]
  cases hq : q.counted with
  | true =>
    simp only [hq, if_true, hset]
    exact ⟨false, _, rfl, rfl, fun _ => ⟨rfl, rfl⟩, fun hf => nomatch hf⟩
  | false =>
    simp only [hq, Bool.false_eq_true, if_false, hset]
    split
    · exact ⟨true, _, rfl, rfl, fun ht => ht.elim, fun _ => rfl⟩
    · exact ⟨false, _, rfl, rfl, fun ht => ht.elim, fun _ => rfl⟩

theorem update_empty (key : String) (s e : Int) (fs : Option Int) (dur : Option ℚ)
    (br : Option Int) (now : ℚ) :
    ∃ b p, update_play_progress [] key s e fs dur br now = (b, [(key, p)]) ∧
      p.last_seen = now ∧ b = p.counted := by
  have hset : ∀ p : PlayProgress, setEntry [] key p = [(key, p)] := by
    intro p
    simp [setEntry, lookupKey]
  simp only [update_play_progress, prune_play_progress, if_pos rfl, lookupKey, hset,
    Bool.false_eq_true, if_false]
  split
  · exact ⟨true, _, rfl, rfl, rfl⟩
  · exact ⟨false, _, rfl, rfl, rfl⟩

theorem countFires_single (key : String) (q : PlayProgress) (calls : List ObsCall)
    (hg : gapsOK q.last_seen calls) :
    countFires key [(key, q)] calls + (if q.counted then 1 else 0) ≤ 1 := by
  induction calls generalizing q with
  | nil =>
    simp only [countFires]
    split <;> omega
  | cons c rest ih =>
    obtain ⟨hgap, hrest⟩ := hg
    obtain ⟨b, p, heq, hls, hcgt, hcgf⟩ := update_single key q c.s c.e c.fs c.dur c.br c.now hgap
    rw [countFires]
    simp only [applyObs, heq]
    have hnext := ih p (by rw [hls]; exact hrest)
    cases hq : q.counted with
    | true =>
      obtain ⟨hb, hp⟩ := hcgt hq
      rw [hp] at hnext
      rw [hb]
      simp at hnext ⊢
      omega
    | false =>
      have hb := hcgf hq
      rw [hb]
      cases hpc : p.counted with
      | true =>
        rw [hpc] at hnext
        simp at hnext ⊢
        omega
      | false =>
        rw [hpc] at hnext
        simp at hnext ⊢
        omega

/-- C7 (amended): `_update_play_progress` fires at most once per key as long
as the key's entry survives between calls.  For any sequence of calls on one
key whose successive times stay within the TTL window, at most one call
returns `True`; and once `counted` is `true`, a call that finds the entry
still present returns `False` while still refreshing `last_seen` and any
provided file-size / duration / bitrate metadata (`counted` stays `true`).
After a TTL-long idle gap, however, the entry is evicted and the next call
can fire a second time (see `C7_counterexample`). -/
theorem C7_amended :
    (∀ (key : String) (calls : List ObsCall), gapsOKFrom calls →
      countFires key [] calls ≤ 1) ∧
    (∀ (key : String) (q : PlayProgress) (s e : Int) (fs : Option Int)
      (dur : Option ℚ) (br : Option Int) (now : ℚ),
      q.counted = true → now - q.last_seen ≤ PLAY_PROGRESS_TTL_SEC →
      (update_play_progress [(key, q)] key s e fs dur br now).1 = false ∧
      (update_play_progress [(key, q)] key s e fs dur br now).2 =
        [(key, { file_size := match fs with | some v => some v | none => q.file_size
                 duration_sec := match dur with | some v => some v | none => q.duration_sec
                 bitrate_kbps := match br with | some v => some v | none => q.bitrate_kbps
                 ranges := q.ranges
                 counted := true
                 last_seen := now })]) := by
  constructor
  · intro key calls hg
    cases calls with
    | nil => simp [countFires]
    | cons c rest =>
      obtain ⟨b, p, heq, hls, hbp⟩ := update_empty key c.s c.e c.fs c.dur c.br c.now
      rw [countFires]
      simp only [applyObs, heq]
      have hnext := countFires_single key p rest (by rw [hls]; exact hg)
      rw [hbp]
      cases hpc : p.counted with
      | true =>
        rw [hpc] at hnext
        simp at hnext ⊢
        omega
      | false =>
        rw [hpc] at hnext
        simp at hnext ⊢
        omega
  · intro key q s e fs dur br now hq hgap
    have hlk : lookupKey [(key, q)] key = some q := by simp [lookupKey]
    have hset : ∀ p : PlayProgress, setEntry [(key, q)] key p = [(key, p)] := by
      intro p
      simp [setEntry, lookupKey]
    simp only [update_play_progress, prune_single key q now hgap, hlk, hset, hq, if_true]
    exact ⟨trivial, trivial⟩

/-- C7 counterexample: the claim's "returns true at most once per key" fails
across a TTL gap.  A call at time 0 covering bytes `[0, 999999]` of a
1,000,000-byte / 100-second file fires (covered seconds 100 ≥ 30); a second
identical call at time 2000 (> TTL 1800 after the first) finds the entry
pruned, recreates it with `counted = false`, and fires again. -/
theorem C7_counterexample :
    (update_play_progress [] "k" 0 999999 (some 1000000) (some 100) none 0).1 = true ∧
    (update_play_progress
      (update_play_progress [] "k" 0 999999 (some 1000000) (some 100) none 0).2
      "k" 0 999999 (some 1000000) (some 100) none 2000).1 = true := by
  have hmr : merge_ranges [] 0 999999 = [(0, 999999)] := by decide
  have hcov : covered_bytes [(0, 999999)] = 1000000 := by decide
  have hsec : PLAY_COUNT_THRESHOLD_SEC ≤ seconds_from_bytes 1000000 (some 1000000) (some 100) none := by
    unfold seconds_from_bytes PLAY_COUNT_THRESHOLD_SEC
    norm_num
  have hcore : ∀ (t : List (String × PlayProgress)) (now : ℚ), prune_play_progress t now = [] →
      update_play_progress t "k" 0 999999 (some 1000000) (some 100) none now =
        (true, [("k", ⟨some 1000000, some 100, none, [(0, 999999)], true, now⟩)]) := by
    intro t now hp
    simp only [update_play_progress, hp, lookupKey, Bool.false_eq_true, if_false]
    rw [hmr, hcov, if_pos hsec]
    simp [setEntry, lookupKey]
  have hprune : prune_play_progress
      [("k", (⟨some 1000000, some 100, none, [(0, 999999)], true, 0⟩ : PlayProgress))] 2000 = [] := by
    simp only [prune_play_progress]
    rw [if_neg (by simp)]
    have hd : decide ((2000 : ℚ) ≤ PLAY_PROGRESS_TTL_SEC) = false := by
      rw [decide_eq_false_iff_not]
      unfold PLAY_PROGRESS_TTL_SEC
      norm_num
    simp [List.filter, hd, PLAY_PROGRESS_MAX]
  constructor
  · rw [hcore [] 0 rfl]
  · rw [hcore [] 0 rfl, hcore _ 2000 hprune]

/-- Witness for `C7_amended`: one observe call covering enough of a
1 MB / 100 s file to fire, and a call on an already-counted entry. -/
theorem C7_witness :
    countFires "k" [] [⟨0, 999999, some 1000000, some 100, none, 0⟩] ≤ 1 ∧
    (update_play_progress
      [("k", ⟨some 1000000, some 100, none, [(0, 999999)], true, 0⟩)]
      "k" 0 999999 (some 1000000) (some 100) none 0).1 = false :=
  ⟨C7_amended.1 "k" [⟨0, 999999, some 1000000, some 100, none, 0⟩] trivial,
   (C7_amended.2 "k" ⟨some 1000000, some 100, none, [(0, 999999)], true, 0⟩
     0 999999 (some 1000000) (some 100) none 0 rfl (by simp [PLAY_PROGRESS_TTL_SEC])).1⟩

theorem chunk_end_le (l : List Chunk) (tw : Nat)
    (hchain : List.Chain' (fun a b : Chunk => a.1 + a.2.length = b.1) l)
    (hlast : ∀ c, l.getLast? = some c → c.1 + c.2.length = tw) :
    ∀ c ∈ l, c.1 + c.2.length ≤ tw := by
  induction l with
  | nil => intro c hc; simp at hc
  | cons a l' ih =>
    intro c hc
    cases l' with
    | nil =>
      rcases List.mem_cons.mp hc with rfl | h
      · exact le_of_eq (hlast c rfl)
      · simp at h
    | cons b l'' =>
      have hchain' : List.Chain' (fun a b : Chunk => a.1 + a.2.length = b.1) (b :: l'') :=
        (List.chain'_cons.mp hchain).2
      have hlast' : ∀ c, (b :: l'').getLast? = some c → c.1 + c.2.length = tw := by
        intro c hcl
        exact hlast c (by rw [List.getLast?_cons_cons]; exact hcl)
      have hih := ih hchain' hlast'
      rcases List.mem_cons.mp hc with rfl | h
      · have hab : c.1 + c.2.length = b.1 := (List.chain'_cons.mp hchain).1
        have hb := hih b (List.mem_cons_self _ _)
        omega
      · exact hih c h

theorem chunks_sorted (l : List Chunk)
    (hchain : List.Chain' (fun a b : Chunk => a.1 + a.2.length = b.1) l) :
    List.Chain' (fun a b : Chunk => a.1 ≤ b.1) l := by
  apply List.Chain'.imp ?_ hchain
  intro a b h
  omega

theorem dropChunksBelow_decomp (m : Nat) (l : List Chunk) :
    ∃ l₁, l = l₁ ++ dropChunksBelow m l ∧ ∀ c ∈ l₁, c.1 + c.2.length ≤ m := by
  induction l with
  | nil => exact ⟨[], rfl, by simp⟩
  | cons a l' ih =>
    by_cases h : a.1 + a.2.length ≤ m
    · obtain ⟨l₁, heq, hall⟩ := ih
      refine ⟨a :: l₁, ?_, ?_⟩
      · simp only [dropChunksBelow]
        rw [if_pos]
        · rw [List.cons_append, ← heq]
        · exact h
      · intro c hc
        rcases List.mem_cons.mp hc with rfl | hmem
        · exact h
        · exact hall c hmem
    · refine ⟨[], ?_, by simp⟩
      simp only [dropChunksBelow]
      rw [if_neg]
      · simp
      · exact h

theorem dropChunksBelow_all (m : Nat) (l : List Chunk)
    (h : ∀ c ∈ l, c.1 + c.2.length ≤ m) : dropChunksBelow m l = [] := by
  induction l with
  | nil => rfl
  | cons a l' ih =>
    simp only [dropChunksBelow]
    rw [if_pos (h a (List.mem_cons_self _ _))]
    exact ih (fun c hc => h c (List.mem_cons_of_mem _ hc))

theorem dropChunksBelow_head_not_below (m : Nat) (l : List Chunk) (c : Chunk)
    (cs : List Chunk) (h : dropChunksBelow m l = c :: cs) :
    ¬ (c.1 + c.2.length ≤ m) := by
  induction l with
  | nil => simp [dropChunksBelow] at h
  | cons a l' ih =>
    simp only [dropChunksBelow] at h
    by_cases ha : a.1 + a.2.length ≤ m
    · rw [if_pos ha] at h
      exact ih h
    · rw [if_neg ha] at h
      obtain ⟨rfl, -⟩ : a = c ∧ l' = cs := by
        constructor <;> [exact (List.cons.injEq _ _ _ _ ▸ h).1; exact (List.cons.injEq _ _ _ _ ▸ h).2]
      exact ha

theorem dropChunksBelow_mem (m : Nat) (l : List Chunk) :
    ∀ c ∈ dropChunksBelow m l, c ∈ l := by
  obtain ⟨l₁, heq, -⟩ := dropChunksBelow_decomp m l
  intro c hc
  rw [heq]
  exact List.mem_append_right _ hc

theorem buffer_start_eq (s : HubState) : buffer_start s = bufferStartOf s.totalWritten s.chunks := by
  cases h : s.chunks with
  | nil => simp [buffer_start, bufferStartOf, h]
  | cons c cs => obtain ⟨off, data⟩ := c; simp [buffer_start, bufferStartOf, h]

theorem bufferStartOf_dropBelow_ge (tw m : Nat) (l : List Chunk)
    (hsorted : List.Chain' (fun a b : Chunk => a.1 ≤ b.1) l)
    (hends : ∀ c ∈ l, c.1 + c.2.length ≤ tw) :
    bufferStartOf tw l ≤ bufferStartOf tw (dropChunksBelow m l) := by
  induction l with
  | nil => simp [dropChunksBelow, bufferStartOf]
  | cons a l' ih =>
    obtain ⟨off, data⟩ := a
    simp only [dropChunksBelow]
    by_cases h : off + data.length ≤ m
    · rw [if_pos h]
      have h1 : off ≤ bufferStartOf tw l' := by
        cases l' with
        | nil =>
          have hoff : off + data.length ≤ tw := hends (off, data) (List.mem_cons_self _ _)
          show off ≤ tw
          omega
        | cons b l'' =>
          have hob : off ≤ b.1 := (List.chain'_cons.mp hsorted).1
          obtain ⟨o2, d2⟩ := b
          exact hob
      have h2 := ih (List.chain'_cons'.mp hsorted).2
        (fun c hc => hends c (List.mem_cons_of_mem _ hc))
      exact le_trans h1 h2
    · rw [if_neg h]

theorem bufferStartOf_dropBelow_le_max (tw m : Nat) (l : List Chunk)
    (hchain : List.Chain' (fun a b : Chunk => a.1 + a.2.length = b.1) l)
    (hlast : ∀ c, l.getLast? = some c → c.1 + c.2.length = tw) :
    bufferStartOf tw (dropChunksBelow m l) ≤ max m (bufferStartOf tw l) := by
  induction l with
  | nil => simp [dropChunksBelow, bufferStartOf]
  | cons a l' ih =>
    obtain ⟨off, data⟩ := a
    simp only [dropChunksBelow]
    by_cases h : off + data.length ≤ m
    · rw [if_pos h]
      cases l' with
      | nil =>
        have hl : off + data.length = tw := hlast (off, data) rfl
        show bufferStartOf tw (dropChunksBelow m []) ≤ max m off
        simp only [dropChunksBelow, bufferStartOf]
        omega
      | cons b l'' =>
        have hchain' := (List.chain'_cons.mp hchain).2
        have hlast' : ∀ c, (b :: l'').getLast? = some c → c.1 + c.2.length = tw := by
          intro c hcl
          exact hlast c (by rw [List.getLast?_cons_cons]; exact hcl)
        have hih := ih hchain' hlast'
        have hb1 : b.1 = off + data.length := ((List.chain'_cons.mp hchain).1).symm
        have hble : bufferStartOf tw (b :: l'') = b.1 := by
          obtain ⟨o2, d2⟩ := b
          simp [bufferStartOf]
        rw [hble, hb1] at hih
        show bufferStartOf tw (dropChunksBelow m (b :: l'')) ≤ max m off
        omega
    · rw [if_neg h]
      exact le_max_right _ _

theorem foldl_min_le_init (a : Nat) (l : List Nat) : l.foldl Nat.min a ≤ a := by
  induction l generalizing a with
  | nil => simp
  | cons b l' ih =>
    simp only [List.foldl]
    exact le_trans (ih (Nat.min a b)) (Nat.min_le_left _ _)

theorem foldl_min_le_mem (a x : Nat) (l : List Nat) (h : x ∈ l) :
    l.foldl Nat.min a ≤ x := by
  induction l generalizing a with
  | nil => simp at h
  | cons b l' ih =>
    simp only [List.foldl]
    rcases List.mem_cons.mp h with rfl | hm
    · exact le_trans (foldl_min_le_init _ _) (Nat.min_le_right _ _)
    · exact ih (Nat.min a b) hm

theorem minConsumerOffset_le (s : HubState) (cid off : Nat)
    (h : (cid, off) ∈ s.consumers) : minConsumerOffset s ≤ off := by
  unfold minConsumerOffset
  have hmem : off ∈ s.consumers.map Prod.snd :=
    List.mem_map.mpr ⟨(cid, off), h, rfl⟩
  cases hv : s.consumers.map Prod.snd with
  | nil => rw [hv] at hmem; simp at hmem
  | cons v vs =>
    rw [hv] at hmem
    rcases List.mem_cons.mp hmem with rfl | hm
    · exact foldl_min_le_init _ _
    · exact foldl_min_le_mem _ _ _ hm

theorem dropChunksBelow_suffix (m : Nat) (l : List Chunk) :
    dropChunksBelow m l <:+ l := by
  obtain ⟨l₁, heq, -⟩ := dropChunksBelow_decomp m l
  exact ⟨l₁, heq.symm⟩

theorem dropChunksBelow_last (m : Nat) (l : List Chunk) (tw : Nat)
    (hlast : ∀ c, l.getLast? = some c → c.1 + c.2.length = tw) :
    ∀ c, (dropChunksBelow m l).getLast? = some c → c.1 + c.2.length = tw := by
  intro c hc
  obtain ⟨l₁, heq, -⟩ := dropChunksBelow_decomp m l
  apply hlast
  rw [heq, List.getLast?_append, hc]
  rfl

theorem gcPhase1_chunks (s : HubState) :
    (gcPhase1 s).chunks = dropChunksBelow (minConsumerOffset s) s.chunks := rfl

theorem gc_locked_totalWritten (s : HubState) :
    (gc_locked s).totalWritten = s.totalWritten := by
  unfold gc_locked gcPhase1
  dsimp only
  split
  · rfl
  · split <;> rfl

theorem gc_locked_consumers (s : HubState) :
    (gc_locked s).consumers = s.consumers := by
  unfold gc_locked gcPhase1
  dsimp only
  split
  · rfl
  · split <;> rfl

theorem gc_locked_done (s : HubState) : (gc_locked s).done = s.done := by
  unfold gc_locked gcPhase1
  dsimp only
  split
  · rfl
  · split <;> rfl

theorem gc_locked_error (s : HubState) : (gc_locked s).error = s.error := by
  unfold gc_locked gcPhase1
  dsimp only
  split
  · rfl
  · split <;> rfl

theorem gc_locked_chunks_cases (s : HubState) :
    (gc_locked s).chunks = (gcPhase1 s).chunks ∨
    (gc_locked s).chunks =
      dropChunksBelow ((gcPhase1 s).totalWritten - MAX_STREAM_BUFFER_BYTES)
        (gcPhase1 s).chunks := by
  unfold gc_locked
  dsimp only
  split
  · exact Or.inl rfl
  · split <;> exact Or.inr rfl

theorem gc_buffer_start_mono (s : HubState)
    (hchain : List.Chain' (fun a b : Chunk => a.1 + a.2.length = b.1) s.chunks)
    (hlast : ∀ c, s.chunks.getLast? = some c → c.1 + c.2.length = s.totalWritten) :
    buffer_start s ≤ buffer_start (gc_locked s) := by
  have hsorted := chunks_sorted _ hchain
  have hends := chunk_end_le _ _ hchain hlast
  have h1 : buffer_start s ≤ buffer_start (gcPhase1 s) := by
    rw [buffer_start_eq, buffer_start_eq, gcPhase1_chunks]
    exact bufferStartOf_dropBelow_ge _ _ _ hsorted hends
  rcases gc_locked_chunks_cases s with hc | hc
  · rw [buffer_start_eq (gc_locked s), hc, gc_locked_totalWritten]
    rw [buffer_start_eq (gcPhase1 s)] at h1
    exact h1
  · rw [buffer_start_eq (gc_locked s), hc, gc_locked_totalWritten]
    have hsorted1 : List.Chain' (fun a b : Chunk => a.1 ≤ b.1) (gcPhase1 s).chunks :=
      hsorted.suffix (gcPhase1_chunks s ▸ dropChunksBelow_suffix _ _)
    have hends1 : ∀ c ∈ (gcPhase1 s).chunks, c.1 + c.2.length ≤ s.totalWritten := by
      intro c hcmem
      exact hends c (dropChunksBelow_mem _ _ c (gcPhase1_chunks s ▸ hcmem))
    have h2 := bufferStartOf_dropBelow_ge s.totalWritten
      ((gcPhase1 s).totalWritten - MAX_STREAM_BUFFER_BYTES) _ hsorted1 hends1
    rw [buffer_start_eq (gcPhase1 s)] at h1
    exact le_trans h1 h2

theorem gc_locked_trichotomy (s : HubState) :
    gc_locked s = gcPhase1 s ∨
    (gcForced s ∧
      ((buffer_start (gcPhase2 s) ≤ buffer_start (gcPhase1 s) ∧
        gc_locked s = gcPhase2 s) ∨
      (buffer_start (gcPhase1 s) < buffer_start (gcPhase2 s) ∧
        gc_locked s = { gcPhase2 s with
          lagged := (gcPhase2 s).lagged ++ ((gcPhase2 s).consumers.filter (fun kv =>
            kv.2 < buffer_start (gcPhase2 s))).map Prod.fst }))) := by
  unfold gc_locked
  dsimp only
  split
  · exact Or.inl rfl
  · rename_i hforce
    refine Or.inr ⟨?_, ?_⟩
    · unfold gcForced
      omega
    · split
      · rename_i hle
        exact Or.inl ⟨hle, rfl⟩
      · rename_i hgt
        exact Or.inr ⟨by omega, rfl⟩

theorem gc_locked_bound (s : HubState) (hne : ∀ c ∈ s.chunks, c.2 ≠ []) :
    ∀ c cs, (gc_locked s).chunks = c :: cs →
      (gc_locked s).totalWritten - c.1 < MAX_STREAM_BUFFER_BYTES + c.2.length := by
  intro c cs hc
  rw [gc_locked_totalWritten]
  have htw : (gcPhase1 s).totalWritten = s.totalWritten := rfl
  unfold gc_locked at hc
  dsimp only at hc
  split at hc
  · rename_i hsmall
    have hbs : buffer_start (gcPhase1 s) = c.1 := by
      rw [buffer_start_eq]
      rw [gcPhase1_chunks] at hc ⊢
      rw [hc]
      obtain ⟨o, d⟩ := c
      simp [bufferStartOf]
    have hmem : c ∈ s.chunks := by
      apply dropChunksBelow_mem (minConsumerOffset s)
      rw [← gcPhase1_chunks, hc]
      exact List.mem_cons_self _ _
    have hpos : 0 < c.2.length :=
      Nat.pos_of_ne_zero (fun h => hne c hmem (List.length_eq_zero.mp h))
    rw [htw, hbs] at hsmall
    omega
  · rename_i hbig
    rw [htw] at hbig
    split at hc
    all_goals {
      have hcp : dropChunksBelow ((gcPhase1 s).totalWritten - MAX_STREAM_BUFFER_BYTES)
          (gcPhase1 s).chunks = c :: cs := hc
      have hnb := dropChunksBelow_head_not_below _ _ _ _ hcp
      rw [htw] at hnb
      simp only [MAX_STREAM_BUFFER_BYTES] at hnb hbig ⊢
      omega
    }

theorem gc_no_consumers (t : HubState) (ht : t.consumers = [])
    (hte : ∀ c ∈ t.chunks, c.1 + c.2.length ≤ t.totalWritten) :
    gc_locked t = { t with chunks := [] } := by
  have hm : minConsumerOffset t = t.totalWritten := by
    simp [minConsumerOffset, ht]
  have hp1 : gcPhase1 t = { t with chunks := [] } := by
    unfold gcPhase1
    rw [hm, dropChunksBelow_all _ _ hte]
  unfold gc_locked
  dsimp only
  rw [hp1]
  rw [if_pos]
  simp [buffer_start]

/-- C9: whenever a hub has no registered consumers, every eviction pass
removes every buffered chunk (the minimum-cursor watermark defaults to
`totalWritten` and every chunk ends at or below it), so the buffer is empty
after every chunk append.  In particular a hub started by the warm path
(`warm_track_cached` calls `_get_or_create_hub` only, registering no
consumer) retains no bytes for consumers that attach later. -/
theorem C9_warm_hub_retains_nothing (s : HubState) (hcons : s.consumers = [])
    (hends : ∀ c ∈ s.chunks, c.1 + c.2.length ≤ s.totalWritten) :
    (gc_locked s).chunks = [] ∧
    ∀ data : List Nat, data ≠ [] → (appendChunk s data).chunks = [] := by
  constructor
  · rw [gc_no_consumers s hcons hends]
  · intro data hdata
    unfold appendChunk
    rw [if_neg hdata]
    rw [gc_no_consumers]
    · exact hcons
    · intro c hcmem
      rcases List.mem_append.mp hcmem with hold | hnew
      · have := hends c hold
        simp only
        omega
      · simp at hnew
        rw [hnew]

/-- Witness for `C9_warm_hub_retains_nothing`: a consumer-less hub holding
one chunk of three bytes. -/
theorem C9_witness :
    (gc_locked ⟨[(0, [1, 2, 3])], 3, false, false, [], []⟩).chunks = [] ∧
    (appendChunk ⟨[(0, [1, 2, 3])], 3, false, false, [], []⟩ [4, 5]).chunks = [] := by
  have h := C9_warm_hub_retains_nothing ⟨[(0, [1, 2, 3])], 3, false, false, [], []⟩
    rfl (by intro c hc; simp at hc; rw [hc]; simp)
  exact ⟨h.1, h.2 [4, 5] (by simp)⟩

theorem append_mid_chain (s : HubState) (data : List Nat)
    (hchain : List.Chain' (fun a b : Chunk => a.1 + a.2.length = b.1) s.chunks)
    (hlast : ∀ c, s.chunks.getLast? = some c → c.1 + c.2.length = s.totalWritten) :
    List.Chain' (fun a b : Chunk => a.1 + a.2.length = b.1)
      (s.chunks ++ [(s.totalWritten, data)]) := by
  rw [List.chain'_append]
  refine ⟨hchain, List.chain'_singleton _, ?_⟩
  intro x hx y hy
  simp only [List.head?_cons, Option.mem_def, Option.some.injEq] at hy
  rw [← hy]
  exact hlast x hx

theorem append_mid_last (s : HubState) (data : List Nat) :
    ∀ c, (s.chunks ++ [(s.totalWritten, data)]).getLast? = some c →
      c.1 + c.2.length = s.totalWritten + data.length := by
  intro c hc
  rw [List.getLast?_concat] at hc
  obtain rfl : (s.totalWritten, data) = c := by injection hc
  rfl

theorem appendChunk_buffer_start_mono (s : HubState) (data : List Nat)
    (hchain : List.Chain' (fun a b : Chunk => a.1 + a.2.length = b.1) s.chunks)
    (hlast : ∀ c, s.chunks.getLast? = some c → c.1 + c.2.length = s.totalWritten) :
    buffer_start s ≤ buffer_start (appendChunk s data) := by
  unfold appendChunk
  split
  · exact le_refl _
  · set s' : HubState := { s with
      chunks := s.chunks ++ [(s.totalWritten, data)]
      totalWritten := s.totalWritten + data.length } with hs'
    have hmono := gc_buffer_start_mono s' (append_mid_chain s data hchain hlast)
      (append_mid_last s data)
    have hbs : buffer_start s ≤ buffer_start s' := by
      rw [buffer_start_eq, buffer_start_eq]
      cases hch : s.chunks with
      | nil =>
        show bufferStartOf s.totalWritten [] ≤
          bufferStartOf s'.totalWritten (s.chunks ++ [(s.totalWritten, data)])
        rw [hch]
        simp [bufferStartOf]
      | cons c cs =>
        obtain ⟨o, d⟩ := c
        show bufferStartOf s.totalWritten ((o, d) :: cs) ≤
          bufferStartOf s'.totalWritten (s.chunks ++ [(s.totalWritten, data)])
        rw [hch]
        simp [bufferStartOf]
    exact le_trans hbs hmono

/-- C3 (amended): `bufferStart` (first retained chunk offset, or
`totalWritten` when the buffer is empty) never decreases across an eviction
pass or a chunk append; and when an eviction pass returns, the retained span
satisfies `totalWritten - bufferStart < maxBufferBytes + (length of the
first retained chunk)` — the hard bound `totalWritten - bufferStart ≤
maxBufferBytes` claimed by the spec is only guaranteed when a chunk
boundary aligns with the `keepFrom` cutoff, because eviction only ever
drops whole chunks (see `C3_counterexample`). -/
theorem C3_amended (s : HubState) (hwf : ChunksWF s) :
    (buffer_start s ≤ buffer_start (gc_locked s) ∧
     ∀ data : List Nat, buffer_start s ≤ buffer_start (appendChunk s data)) ∧
    ((gc_locked s).chunks = [] →
      (gc_locked s).totalWritten - buffer_start (gc_locked s) = 0) ∧
    (∀ c cs, (gc_locked s).chunks = c :: cs →
      (gc_locked s).totalWritten - c.1 < MAX_STREAM_BUFFER_BYTES + c.2.length) := by
  obtain ⟨hchain, hlast, hne⟩ := hwf
  refine ⟨⟨gc_buffer_start_mono s hchain hlast,
    fun data => appendChunk_buffer_start_mono s data hchain hlast⟩, ?_, gc_locked_bound s hne⟩
  intro hc
  rw [buffer_start_eq, hc]
  simp [bufferStartOf]

/-- Witness for `C3_amended`: a hub with one 3-byte chunk and one consumer. -/
theorem C3_witness :
    ChunksWF ⟨[(0, [1, 2, 3])], 3, false, false, [(1, 0)], []⟩ ∧
    buffer_start ⟨[(0, [1, 2, 3])], 3, false, false, [(1, 0)], []⟩ ≤
      buffer_start (gc_locked ⟨[(0, [1, 2, 3])], 3, false, false, [(1, 0)], []⟩) := by
  have hwf : ChunksWF ⟨[(0, [1, 2, 3])], 3, false, false, [(1, 0)], []⟩ := by
    refine ⟨?_, ?_, ?_⟩
    · simp
    · intro c hc
      simp only [List.getLast?_singleton, Option.some.injEq] at hc
      rw [← hc]
      rfl
    · intro c hc
      simp at hc
      rw [hc]
      simp
  exact ⟨hwf, (C3_amended _ hwf).1.1⟩

/-- C3 counterexample: with one consumer at offset 0 holding a single
26,000,000-byte chunk, the eviction pass enters the forced case (retained
bytes exceed the 25,000,000 cap) but removes nothing, because the one chunk's
end lies above `keepFrom`; on return `totalWritten - bufferStart =
26,000,000 > 25,000,000`, so the claimed bound is not re-established when
`_gc_locked` returns. -/
theorem C3_counterexample :
    MAX_STREAM_BUFFER_BYTES <
      (gc_locked ⟨[(0, List.replicate 26000000 0)], 26000000, false, false, [(7, 0)], []⟩).totalWritten -
        buffer_start (gc_locked ⟨[(0, List.replicate 26000000 0)], 26000000, false, false, [(7, 0)], []⟩) := by
  generalize hbig : List.replicate 26000000 (0 : Nat) = big
  have hlen : big.length = 26000000 := by
    rw [← hbig]
    exact List.length_replicate _ _
  have hgc : gc_locked ⟨[(0, big)], 26000000, false, false, [(7, 0)], []⟩ =
      ⟨[(0, big)], 26000000, false, false, [(7, 0)], []⟩ := by
    have hp1 : gcPhase1 ⟨[(0, big)], 26000000, false, false, [(7, 0)], []⟩ =
        ⟨[(0, big)], 26000000, false, false, [(7, 0)], []⟩ := by
      unfold gcPhase1 minConsumerOffset
      simp [dropChunksBelow, hlen]
    have hp2 : gcPhase2 ⟨[(0, big)], 26000000, false, false, [(7, 0)], []⟩ =
        ⟨[(0, big)], 26000000, false, false, [(7, 0)], []⟩ := by
      unfold gcPhase2
      rw [hp1]
      simp [dropChunksBelow, hlen, MAX_STREAM_BUFFER_BYTES]
    unfold gc_locked
    dsimp only
    rw [hp1, hp2]
    rw [if_neg]
    · rw [if_pos (le_refl _)]
    · simp [buffer_start, MAX_STREAM_BUFFER_BYTES]
  rw [hgc]
  simp [buffer_start, MAX_STREAM_BUFFER_BYTES]

theorem gc_removed_chunks (s : HubState) :
    ∀ c ∈ s.chunks, c ∉ (gc_locked s).chunks →
      c.1 + c.2.length ≤ minConsumerOffset s ∨
      (gcForced s ∧ c.1 + c.2.length ≤ s.totalWritten - MAX_STREAM_BUFFER_BYTES) := by
  intro c hcmem hcnot
  have hphase1 : c ∉ (gcPhase1 s).chunks →
      c.1 + c.2.length ≤ minConsumerOffset s := by
    intro hnp
    obtain ⟨l₁, heq, hall⟩ := dropChunksBelow_decomp (minConsumerOffset s) s.chunks
    rw [gcPhase1_chunks] at hnp
    rcases List.mem_append.mp (heq ▸ hcmem) with h1 | h2
    · exact hall c h1
    · exact absurd h2 hnp
  rcases gc_locked_trichotomy s with h | ⟨hforced, h2⟩
  · rw [h] at hcnot
    exact Or.inl (hphase1 hcnot)
  · have hchunks : (gc_locked s).chunks = (gcPhase2 s).chunks := by
      rcases h2 with ⟨-, heq⟩ | ⟨-, heq⟩
      · rw [heq]
      · rw [heq]
    rw [hchunks] at hcnot
    by_cases hp1 : c ∈ (gcPhase1 s).chunks
    · right
      refine ⟨hforced, ?_⟩
      obtain ⟨l₁, heq, hall⟩ := dropChunksBelow_decomp
        ((gcPhase1 s).totalWritten - MAX_STREAM_BUFFER_BYTES) (gcPhase1 s).chunks
      have hc2 : (gcPhase2 s).chunks = dropChunksBelow
          ((gcPhase1 s).totalWritten - MAX_STREAM_BUFFER_BYTES) (gcPhase1 s).chunks := rfl
      rw [hc2] at hcnot
      rcases List.mem_append.mp (heq ▸ hp1) with h1 | h2
      · exact hall c h1
      · exact absurd h2 hcnot
    · exact Or.inl (hphase1 hp1)

theorem gc_lagged_marked (s : HubState)
    (hchain : List.Chain' (fun a b : Chunk => a.1 + a.2.length = b.1) s.chunks)
    (hlast : ∀ c, s.chunks.getLast? = some c → c.1 + c.2.length = s.totalWritten) :
    ∀ cid off, (cid, off) ∈ s.consumers → buffer_start s ≤ off →
      off < buffer_start (gc_locked s) → cid ∈ (gc_locked s).lagged := by
  intro cid off hmem hge hlt
  have hsorted := chunks_sorted _ hchain
  have hends := chunk_end_le _ _ hchain hlast
  have hminle : minConsumerOffset s ≤ off := minConsumerOffset_le s cid off hmem
  have hb1max : buffer_start (gcPhase1 s) ≤ max (minConsumerOffset s) (buffer_start s) := by
    rw [buffer_start_eq (gcPhase1 s), gcPhase1_chunks, buffer_start_eq s]
    exact bufferStartOf_dropBelow_le_max _ _ _ hchain hlast
  have hb1off : buffer_start (gcPhase1 s) ≤ off := le_trans hb1max (by omega)
  rcases gc_locked_trichotomy s with h | ⟨hforced, h2⟩
  · rw [h] at hlt
    omega
  · rcases h2 with ⟨hle, heq⟩ | ⟨hgt, heq⟩
    · exfalso
      rw [heq] at hlt
      omega
    · rw [heq]
      show cid ∈ (gcPhase2 s).lagged ++ ((gcPhase2 s).consumers.filter (fun kv =>
        kv.2 < buffer_start (gcPhase2 s))).map Prod.fst
      apply List.mem_append_right
      apply List.mem_map.mpr
      refine ⟨(cid, off), ?_, rfl⟩
      apply List.mem_filter.mpr
      have hcons : (gcPhase2 s).consumers = s.consumers := rfl
      refine ⟨hcons ▸ hmem, ?_⟩
      have hbs : buffer_start (gc_locked s) = buffer_start (gcPhase2 s) := by
        rw [heq]
        rfl
      rw [hbs] at hlt
      exact decide_eq_true hlt

/-- C4 (amended): an eviction pass removes a chunk only when the chunk ends
at or below the minimum registered-consumer cursor, or when the pass is
forced (retained bytes exceed the cap) and the chunk ends at or below
`keepFrom = totalWritten - maxBufferBytes`; and every consumer whose cursor
was at or above the previous buffer start and falls below the new buffer
start is added to the lagged set.  (A consumer already below the buffer
start before the pass is not necessarily marked: see `C4_counterexample`.) -/
theorem C4_amended (s : HubState) (hwf : ChunksWF s) :
    (∀ c ∈ s.chunks, c ∉ (gc_locked s).chunks →
      c.1 + c.2.length ≤ minConsumerOffset s ∨
      (gcForced s ∧ c.1 + c.2.length ≤ s.totalWritten - MAX_STREAM_BUFFER_BYTES)) ∧
    (∀ cid off, (cid, off) ∈ s.consumers → buffer_start s ≤ off →
      off < buffer_start (gc_locked s) → cid ∈ (gc_locked s).lagged) :=
  ⟨gc_removed_chunks s, gc_lagged_marked s hwf.1 hwf.2.1⟩

/-- C4 counterexample: a forced eviction pass (retained 26,000,000 bytes >
cap) that drops nothing — the single chunk ends above `keepFrom` — returns
with the consumer at cursor 0 still below the buffer start 100, yet the
lagged set stays empty: the claim's "every consumer whose cursor falls below
the new buffer start is added to the lagged set" fails for consumers that
were already below the buffer start when the pass began. -/
theorem C4_counterexample :
    gcForced ⟨[(100, List.replicate 26000000 0)], 26000100, false, false, [(1, 0)], []⟩ ∧
    (1, 0) ∈ (⟨[(100, List.replicate 26000000 0)], 26000100, false, false, [(1, 0)], []⟩ : HubState).consumers ∧
    (0 : Nat) < buffer_start
      (gc_locked ⟨[(100, List.replicate 26000000 0)], 26000100, false, false, [(1, 0)], []⟩) ∧
    (gc_locked ⟨[(100, List.replicate 26000000 0)], 26000100, false, false, [(1, 0)], []⟩).lagged = [] := by
  generalize hbig : List.replicate 26000000 (0 : Nat) = big
  have hlen : big.length = 26000000 := by
    rw [← hbig]
    exact List.length_replicate _ _
  have hp1 : gcPhase1 ⟨[(100, big)], 26000100, false, false, [(1, 0)], []⟩ =
      ⟨[(100, big)], 26000100, false, false, [(1, 0)], []⟩ := by
    unfold gcPhase1 minConsumerOffset
    simp [dropChunksBelow, hlen]
  have hp2 : gcPhase2 ⟨[(100, big)], 26000100, false, false, [(1, 0)], []⟩ =
      ⟨[(100, big)], 26000100, false, false, [(1, 0)], []⟩ := by
    unfold gcPhase2
    rw [hp1]
    simp [dropChunksBelow, hlen, MAX_STREAM_BUFFER_BYTES]
  have hgc : gc_locked ⟨[(100, big)], 26000100, false, false, [(1, 0)], []⟩ =
      ⟨[(100, big)], 26000100, false, false, [(1, 0)], []⟩ := by
    unfold gc_locked
    dsimp only
    rw [hp1, hp2]
    rw [if_neg]
    · rw [if_pos (le_refl _)]
    · simp [buffer_start, MAX_STREAM_BUFFER_BYTES]
  refine ⟨?_, by simp, ?_, ?_⟩
  · unfold gcForced
    rw [hp1]
    simp [buffer_start, MAX_STREAM_BUFFER_BYTES]
  · rw [hgc]
    simp [buffer_start]
  · rw [hgc]

/-- Witness for `C4_amended`: a hub whose single consumer has read past the
only chunk, so the pass removes it; the removed chunk indeed ends at or
below the minimum consumer cursor. -/
theorem C4_witness :
    ChunksWF ⟨[(0, [1, 2])], 2, false, false, [(1, 2)], []⟩ ∧
    ((0, [1, 2]) : Chunk) ∈ (⟨[(0, [1, 2])], 2, false, false, [(1, 2)], []⟩ : HubState).chunks ∧
    ((0, [1, 2]) : Chunk) ∉ (gc_locked ⟨[(0, [1, 2])], 2, false, false, [(1, 2)], []⟩).chunks ∧
    (((0, [1, 2]) : Chunk).1 + ((0, [1, 2]) : Chunk).2.length ≤
        minConsumerOffset ⟨[(0, [1, 2])], 2, false, false, [(1, 2)], []⟩ ∨
      (gcForced ⟨[(0, [1, 2])], 2, false, false, [(1, 2)], []⟩ ∧
        ((0, [1, 2]) : Chunk).1 + ((0, [1, 2]) : Chunk).2.length ≤
          (2 : Nat) - MAX_STREAM_BUFFER_BYTES)) := by
  have hwf : ChunksWF ⟨[(0, [1, 2])], 2, false, false, [(1, 2)], []⟩ := by
    refine ⟨by simp, ?_, by decide⟩
    intro c hc
    simp only [List.getLast?_singleton, Option.some.injEq] at hc
    rw [← hc]
    rfl
  exact ⟨hwf, by decide, by decide,
    (C4_amended _ hwf).1 (0, [1, 2]) (by decide) (by decide)⟩

theorem lookupLoad_mem (l : List (Nat × Int)) (c : Nat) (v : Int)
    (h : lookupLoad l c = some v) : (c, v) ∈ l := by
  induction l with
  | nil => simp [lookupLoad] at h
  | cons kv rest ih =>
    unfold lookupLoad at h
    split at h
    · rename_i heq
      have hv : kv.2 = v := by injection h
      have hkv : (c, v) = kv := by
        obtain ⟨k1, k2⟩ := kv
        simp only at heq hv
        rw [← heq, ← hv]
      rw [hkv]
      exact List.mem_cons_self _ _
    · exact List.mem_cons_of_mem _ (ih h)

theorem loadOf_nonneg (p : Pool) (c : Nat) (h : NonnegLoads p.workLoads) :
    0 ≤ loadOf p c := by
  unfold loadOf
  cases hf : lookupLoad p.workLoads c with
  | none => exact le_refl 0
  | some v => exact h (c, v) (lookupLoad_mem _ _ _ hf)

theorem setLoad_mem (l : List (Nat × Int)) (cid : Nat) (v : Int) :
    ∀ kv ∈ setLoad l cid v, kv = (cid, v) ∨ kv ∈ l := by
  intro kv hkv
  unfold setLoad at hkv
  split at hkv
  · obtain ⟨kw, hkw, hf⟩ := List.mem_map.mp hkv
    by_cases h : kw.1 = cid
    · rw [← hf, if_pos h]
      exact Or.inl rfl
    · rw [← hf, if_neg h]
      exact Or.inr hkw
  · rcases List.mem_append.mp hkv with h | h
    · exact Or.inr h
    · simp at h
      exact Or.inl (by rw [h])

theorem setLoad_nonneg (l : List (Nat × Int)) (cid : Nat) (v : Int)
    (hl : NonnegLoads l) (hv : 0 ≤ v) : NonnegLoads (setLoad l cid v) := by
  intro kv hkv
  rcases setLoad_mem l cid v kv hkv with rfl | h
  · exact hv
  · exact hl kv h

theorem getD_mem_of_lt {l : List Nat} {i : Nat} (d : Nat) (h : i < l.length) :
    l.getD i d ∈ l := by
  rw [List.getD_eq_getElem?_getD, List.getElem?_eq_getElem h]
  exact List.getElem_mem h

theorem acquire_some_spec (p : Pool) (cid : Nat) (p' : Pool)
    (h : acquire_stream_client p = some (cid, p')) :
    p'.workLoads = setLoad p.workLoads cid (loadOf p cid + 1) ∧
    p'.multiEnabled = p.multiEnabled ∧ p'.primary = p.primary ∧
    candidatesOf p ≠ [] ∧ (tiedOf p = [] ∨ cid ∈ tiedOf p) := by
  unfold acquire_stream_client at h
  split at h
  · exact absurd h (by simp)
  · rename_i hcand
    split at h
    · rename_i htied
      simp only [Option.some.injEq, Prod.mk.injEq] at h
      obtain ⟨h1, h2⟩ := h
      subst h1
      subst h2
      exact ⟨rfl, rfl, rfl, hcand, Or.inl htied⟩
    · rename_i x xs htied
      simp only [Option.some.injEq, Prod.mk.injEq] at h
      obtain ⟨h1, h2⟩ := h
      subst h1
      subst h2
      refine ⟨rfl, rfl, rfl, hcand, Or.inr ?_⟩
      have hlen : 0 < (tiedOf p).length := by
        rw [htied]
        simp
      apply getD_mem_of_lt
      split
      · exact Nat.mod_lt _ hlen
      · exact hlen

theorem acquire_nonneg (p : Pool) (cid : Nat) (p' : Pool)
    (hn : NonnegLoads p.workLoads) (h : acquire_stream_client p = some (cid, p')) :
    NonnegLoads p'.workLoads := by
  obtain ⟨hw, -, -, -, -⟩ := acquire_some_spec p cid p' h
  rw [hw]
  have h0 := loadOf_nonneg p cid hn
  exact setLoad_nonneg _ _ _ hn (by omega)

theorem release_nonneg (p : Pool) (cid : Nat) (hn : NonnegLoads p.workLoads) :
    NonnegLoads (release_stream_client p cid).workLoads := by
  unfold release_stream_client
  split
  · apply setLoad_nonneg _ _ _ hn
    split
    · omega
    · exact le_refl 0
  · exact hn

theorem runPool_nonneg (ops : List PoolOp) (p : Pool) (hn : NonnegLoads p.workLoads) :
    NonnegLoads (runPool p ops).workLoads := by
  induction ops generalizing p with
  | nil => exact hn
  | cons op rest ih =>
    cases op with
    | acq =>
      rw [runPool]
      cases hacq : acquire_stream_client p with
      | none => exact ih p hn
      | some r =>
        obtain ⟨cid, p2⟩ := r
        exact ih p2 (acquire_nonneg p cid p2 hn hacq)
    | rel cid =>
      rw [runPool]
      exact ih _ (release_nonneg p cid hn)

theorem foldl_min_le_init_int (a : Int) (l : List Int) : l.foldl min a ≤ a := by
  induction l generalizing a with
  | nil => simp
  | cons b l' ih =>
    simp only [List.foldl]
    exact le_trans (ih (min a b)) (min_le_left _ _)

theorem foldl_min_le_mem_int (a x : Int) (l : List Int) (h : x ∈ l) :
    l.foldl min a ≤ x := by
  induction l generalizing a with
  | nil => simp at h
  | cons b l' ih =>
    simp only [List.foldl]
    rcases List.mem_cons.mp h with rfl | hm
    · exact le_trans (foldl_min_le_init_int _ _) (min_le_right _ _)
    · exact ih (min a b) hm

theorem foldl_min_attained_int (a : Int) (l : List Int) :
    l.foldl min a = a ∨ l.foldl min a ∈ l := by
  induction l generalizing a with
  | nil => exact Or.inl rfl
  | cons b l' ih =>
    simp only [List.foldl]
    rcases ih (min a b) with h | h
    · rcases min_cases a b with ⟨hm, -⟩ | ⟨hm, -⟩
      · exact Or.inl (by rw [h, hm])
      · exact Or.inr (by rw [h, hm]; exact List.mem_cons_self _ _)
    · exact Or.inr (List.mem_cons_of_mem _ h)

theorem mem_insertNat (x y : Nat) (l : List Nat) :
    y ∈ insertNat x l ↔ y = x ∨ y ∈ l := by
  induction l with
  | nil => simp [insertNat]
  | cons a l' ih =>
    simp only [insertNat]
    split
    · simp
    · simp only [List.mem_cons, ih]
      tauto

theorem mem_sortNat (y : Nat) (l : List Nat) : y ∈ sortNat l ↔ y ∈ l := by
  induction l with
  | nil => simp [sortNat]
  | cons a l' ih =>
    simp only [sortNat, mem_insertNat, ih, List.mem_cons]

theorem minLoadOf_le (p : Pool) (c : Nat) (h : c ∈ candidatesOf p) :
    minLoadOf p ≤ loadOf p c := by
  unfold minLoadOf
  have hmem : loadOf p c ∈ (candidatesOf p).map (loadOf p) :=
    List.mem_map.mpr ⟨c, h, rfl⟩
  cases hm : (candidatesOf p).map (loadOf p) with
  | nil => rw [hm] at hmem; simp at hmem
  | cons v vs =>
    rw [hm] at hmem
    rcases List.mem_cons.mp hmem with heq | hmm
    · rw [← heq]
      exact foldl_min_le_init_int _ _
    · exact foldl_min_le_mem_int _ _ _ hmm

theorem mem_tiedOf (p : Pool) (c : Nat) :
    c ∈ tiedOf p ↔ c ∈ candidatesOf p ∧ loadOf p c = minLoadOf p := by
  unfold tiedOf
  rw [mem_sortNat, List.mem_filter]
  simp

theorem tiedOf_ne (p : Pool) (h : candidatesOf p ≠ []) : tiedOf p ≠ [] := by
  have hmapne : (candidatesOf p).map (loadOf p) ≠ [] := by
    intro hm
    exact h (List.map_eq_nil_iff.mp hm)
  have hatt : ∃ c ∈ candidatesOf p, loadOf p c = minLoadOf p := by
    unfold minLoadOf
    cases hm : (candidatesOf p).map (loadOf p) with
    | nil => exact absurd hm hmapne
    | cons v vs =>
      have : vs.foldl min v ∈ v :: vs := by
        rcases foldl_min_attained_int v vs with h1 | h1
        · rw [h1]; exact List.mem_cons_self _ _
        · exact List.mem_cons_of_mem _ h1
      rw [← hm] at this
      obtain ⟨c, hc, hcl⟩ := List.mem_map.mp this
      exact ⟨c, hc, by rw [hcl]⟩
  obtain ⟨c, hc, hcl⟩ := hatt
  intro hnil
  have : c ∈ tiedOf p := (mem_tiedOf p c).mpr ⟨hc, hcl⟩
  rw [hnil] at this
  simp at this

theorem lookupLoad_keys_nodup (l : List (Nat × Int)) (kv : Nat × Int)
    (hnd : (l.map Prod.fst).Nodup) (h : kv ∈ l) :
    lookupLoad l kv.1 = some kv.2 := by
  induction l with
  | nil => simp at h
  | cons a l' ih =>
    unfold lookupLoad
    rcases List.mem_cons.mp h with rfl | hmem
    · rw [if_pos rfl]
    · have hne : a.1 ≠ kv.1 := by
        intro heq
        have hmm : kv.1 ∈ l'.map Prod.fst := List.mem_map.mpr ⟨kv, hmem, rfl⟩
        rw [← heq] at hmm
        exact (List.nodup_cons.mp hnd).1 hmm
      rw [if_neg hne]
      exact ih (List.nodup_cons.mp hnd).2 hmem

theorem loadOf_mem (p : Pool) (kv : Nat × Int) (hnd : KeysNodup p.workLoads)
    (h : kv ∈ p.workLoads) : loadOf p kv.1 = kv.2 := by
  unfold loadOf
  rw [lookupLoad_keys_nodup p.workLoads kv hnd h]
  rfl

theorem loadOf_key_mem (p : Pool) (c : Nat) (hnd : KeysNodup p.workLoads)
    (h : c ∈ p.workLoads.map Prod.fst) : (c, loadOf p c) ∈ p.workLoads := by
  obtain ⟨kv, hkv, hfst⟩ := List.mem_map.mp h
  have hl := loadOf_mem p kv hnd hkv
  have : (c, loadOf p c) = kv := by
    rw [← hfst, hl]
  rw [this]
  exact hkv

theorem candidatesOf_subset (p : Pool) :
    ∀ c ∈ candidatesOf p, c ∈ p.workLoads.map Prod.fst := by
  intro c hc
  unfold candidatesOf at hc
  split at hc
  · dsimp only at hc
    split at hc
    · split at hc
      · exact hc
      · exact List.mem_of_mem_filter hc
    · exact hc
  · exact hc

theorem candidatesOf_none (p : Pool) (h : p.primary = none) :
    candidatesOf p = p.workLoads.map Prod.fst := by
  unfold candidatesOf
  rw [h]

theorem any_key_of_mem (l : List (Nat × Int)) (cid : Nat)
    (h : cid ∈ l.map Prod.fst) : l.any (fun kv => kv.1 == cid) = true := by
  rw [List.any_eq_true]
  obtain ⟨kv, hkv, hfst⟩ := List.mem_map.mp h
  exact ⟨kv, hkv, by simp [hfst]⟩

theorem setLoad_keys_of_mem (l : List (Nat × Int)) (cid : Nat) (v : Int)
    (h : l.any (fun kv => kv.1 == cid) = true) :
    (setLoad l cid v).map Prod.fst = l.map Prod.fst := by
  unfold setLoad
  rw [if_pos h, List.map_map]
  apply List.map_congr_left
  intro kv hkv
  by_cases hc : kv.1 = cid
  · simp [Function.comp, hc]
  · simp [Function.comp, hc]

theorem acquire_picks_tied (p : Pool) (cid : Nat) (p2 : Pool)
    (h : acquire_stream_client p = some (cid, p2)) : cid ∈ tiedOf p := by
  obtain ⟨-, -, -, hcand, htied⟩ := acquire_some_spec p cid p2 h
  rcases htied with ht | ht
  · exact absurd ht (tiedOf_ne p hcand)
  · exact ht

theorem acquire_load_bounds (p : Pool) (cid : Nat) (p2 : Pool)
    (hpr : p.primary = none) (hnd : KeysNodup p.workLoads)
    (hb : Balanced p.workLoads)
    (h : acquire_stream_client p = some (cid, p2)) :
    ∀ kv ∈ p2.workLoads, minLoadOf p ≤ kv.2 ∧ kv.2 ≤ minLoadOf p + 1 := by
  obtain ⟨hw, -, -, -, -⟩ := acquire_some_spec p cid p2 h
  have htc : cid ∈ tiedOf p := acquire_picks_tied p cid p2 h
  obtain ⟨hcc, hcm⟩ := (mem_tiedOf p cid).mp htc
  have hkeys : cid ∈ p.workLoads.map Prod.fst := candidatesOf_subset p cid hcc
  have hcid_mem : (cid, minLoadOf p) ∈ p.workLoads := by
    have hmm := loadOf_key_mem p cid hnd hkeys
    rw [hcm] at hmm
    exact hmm
  intro kv hkv
  rw [hw] at hkv
  rcases setLoad_mem _ _ _ kv hkv with rfl | hmem
  · have h2 : (cid, loadOf p cid + 1).2 = minLoadOf p + 1 := by rw [hcm]
    rw [h2]
    omega
  · have hkvc : kv.1 ∈ candidatesOf p := by
      rw [candidatesOf_none p hpr]
      exact List.mem_map.mpr ⟨kv, hmem, rfl⟩
    have h1 : minLoadOf p ≤ loadOf p kv.1 := minLoadOf_le p kv.1 hkvc
    rw [loadOf_mem p kv hnd hmem] at h1
    have h2 : kv.2 - minLoadOf p ≤ 1 := hb kv hmem (cid, minLoadOf p) hcid_mem
    exact ⟨h1, by omega⟩

theorem acquire_balanced (p : Pool) (cid : Nat) (p2 : Pool)
    (hpr : p.primary = none) (hnd : KeysNodup p.workLoads)
    (hb : Balanced p.workLoads)
    (h : acquire_stream_client p = some (cid, p2)) :
    Balanced p2.workLoads := by
  intro kv hkv kw hkw
  obtain ⟨h1, h2⟩ := acquire_load_bounds p cid p2 hpr hnd hb h kv hkv
  obtain ⟨h3, h4⟩ := acquire_load_bounds p cid p2 hpr hnd hb h kw hkw
  omega

theorem acquire_keys (p : Pool) (cid : Nat) (p2 : Pool)
    (h : acquire_stream_client p = some (cid, p2)) :
    p2.workLoads.map Prod.fst = p.workLoads.map Prod.fst := by
  obtain ⟨hw, -, -, -, -⟩ := acquire_some_spec p cid p2 h
  have htc : cid ∈ tiedOf p := acquire_picks_tied p cid p2 h
  have hkeys : cid ∈ p.workLoads.map Prod.fst :=
    candidatesOf_subset p cid ((mem_tiedOf p cid).mp htc).1
  rw [hw]
  exact setLoad_keys_of_mem _ _ _ (any_key_of_mem _ _ hkeys)

theorem runPool_acq_balanced (n : Nat) (p : Pool)
    (hpr : p.primary = none) (hnd : KeysNodup p.workLoads)
    (hb : Balanced p.workLoads) :
    Balanced (runPool p (List.replicate n PoolOp.acq)).workLoads := by
  induction n generalizing p with
  | zero => exact hb
  | succ m ih =>
    rw [List.replicate_succ, runPool]
    cases hacq : acquire_stream_client p with
    | none => exact ih p hpr hnd hb
    | some r =>
      obtain ⟨cid, p2⟩ := r
      have hpr2 : p2.primary = none := by
        obtain ⟨-, -, hprr, -, -⟩ := acquire_some_spec p cid p2 hacq
        rw [hprr, hpr]
      have hnd2 : KeysNodup p2.workLoads := by
        unfold KeysNodup
        rw [acquire_keys p cid p2 hacq]
        exact hnd
      exact ih p2 hpr2 hnd2 (acquire_balanced p cid p2 hpr hnd hb hacq)

/-- C6: for every operation sequence the load counters stay non-negative;
and (amended) for acquire-only sequences on a pool with no primary
preference, duplicate-free handle ids and balanced initial loads, the
loads stay balanced: any two handles differ by at most 1. The balance
part of the original claim is false for sequences mixing acquire and
release (see the counterexample). -/
theorem C6_amended (p : Pool) (ops : List PoolOp) (n : Nat)
    (hn : NonnegLoads p.workLoads) (hpr : p.primary = none)
    (hnd : KeysNodup p.workLoads) (hb : Balanced p.workLoads) :
    NonnegLoads (runPool p ops).workLoads ∧
    Balanced (runPool p (List.replicate n PoolOp.acq)).workLoads :=
  ⟨runPool_nonneg ops p hn, runPool_acq_balanced n p hpr hnd hb⟩

/-- C6 counterexample: from two idle handles and no preference, the
sequence acquire, acquire, acquire, release(2) leaves loads 2 and 0 —
a load difference of 2 with two outstanding acquires. -/
theorem C6_counterexample :
    ∃ kv ∈ (runPool
      { workLoads := [(1, 0), (2, 0)], rrCursor := 0, multiEnabled := false,
        primary := none }
      [PoolOp.acq, PoolOp.acq, PoolOp.acq, PoolOp.rel 2]).workLoads,
    ∃ kw ∈ (runPool
      { workLoads := [(1, 0), (2, 0)], rrCursor := 0, multiEnabled := false,
        primary := none }
      [PoolOp.acq, PoolOp.acq, PoolOp.acq, PoolOp.rel 2]).workLoads,
    1 < kv.2 - kw.2 := by
  decide

/-- Witness for C6_amended at a concrete pool. -/
theorem C6_witness :
    NonnegLoads (runPool
      { workLoads := [(1, 0), (2, 0)], rrCursor := 0, multiEnabled := false,
        primary := none }
      [PoolOp.acq, PoolOp.rel 1]).workLoads ∧
    Balanced (runPool
      { workLoads := [(1, 0), (2, 0)], rrCursor := 0, multiEnabled := false,
        primary := none }
      (List.replicate 3 PoolOp.acq)).workLoads :=
  C6_amended
    { workLoads := [(1, 0), (2, 0)], rrCursor := 0, multiEnabled := false,
      primary := none }
    [PoolOp.acq, PoolOp.rel 1] 3 (by decide) rfl (by decide) (by decide)

theorem lookupHub_append_none (l : List (String × HubEntry)) (k : String)
    (v : HubEntry) (h : ∀ kv ∈ l, kv.1 ≠ k) :
    lookupHub (l ++ [(k, v)]) k = some v := by
  induction l with
  | nil => simp [lookupHub]
  | cons a l' ih =>
    simp only [List.cons_append, lookupHub]
    rw [if_neg (h a (List.mem_cons_self _ _))]
    exact ih (fun kv hkv => h kv (List.mem_cons_of_mem _ hkv))

theorem lookupHub_append_other (l : List (String × HubEntry)) (k k2 : String)
    (v : HubEntry) (hne : k2 ≠ k) :
    lookupHub (l ++ [(k, v)]) k2 = lookupHub l k2 := by
  induction l with
  | nil =>
    simp only [List.nil_append, lookupHub]
    rw [if_neg (fun h => hne h.symm)]
  | cons a l' ih =>
    simp only [List.cons_append, lookupHub]
    by_cases hb : a.1 = k2
    · rw [if_pos hb, if_pos hb]
    · rw [if_neg hb, if_neg hb]
      exact ih

theorem lookupHub_map_set_self (l : List (String × HubEntry)) (k : String)
    (v : HubEntry) (h : l.any (fun kv => kv.1 == k) = true) :
    lookupHub (l.map (fun kv => if kv.1 = k then (k, v) else kv)) k = some v := by
  induction l with
  | nil => simp at h
  | cons a l' ih =>
    by_cases ha : a.1 = k
    · rw [List.map_cons, if_pos ha]
      simp [lookupHub]
    · have h2 : l'.any (fun kv => kv.1 == k) = true := by
        simp only [List.any_cons] at h
        rcases (Bool.or_eq_true _ _).mp h with h1 | h1
        · exact absurd (eq_of_beq h1) ha
        · exact h1
      rw [List.map_cons, if_neg ha]
      simp only [lookupHub]
      rw [if_neg ha]
      exact ih h2

theorem lookupHub_map_set_other (l : List (String × HubEntry)) (k k2 : String)
    (v : HubEntry) (hne : k2 ≠ k) :
    lookupHub (l.map (fun kv => if kv.1 = k then (k, v) else kv)) k2 =
      lookupHub l k2 := by
  induction l with
  | nil => rfl
  | cons a l' ih =>
    by_cases ha : a.1 = k
    · have hk2 : ¬ ((k, v).1 = k2) := fun h => hne h.symm
      have ha2 : ¬ (a.1 = k2) := fun h => hne (by rw [← h]; exact ha)
      rw [List.map_cons, if_pos ha]
      simp only [lookupHub]
      rw [if_neg hk2, if_neg ha2]
      exact ih
    · rw [List.map_cons, if_neg ha]
      simp only [lookupHub]
      by_cases hb : a.1 = k2
      · rw [if_pos hb, if_pos hb]
      · rw [if_neg hb, if_neg hb]
        exact ih

theorem lookupHub_setHub_self (l : List (String × HubEntry)) (k : String)
    (v : HubEntry) : lookupHub (setHub l k v) k = some v := by
  unfold setHub
  split
  · exact lookupHub_map_set_self l k v (by assumption)
  · apply lookupHub_append_none
    rename_i hany
    intro kv hkv hk
    apply hany
    rw [List.any_eq_true]
    exact ⟨kv, hkv, by simp [hk]⟩

theorem lookupHub_setHub_other (l : List (String × HubEntry)) (k k2 : String)
    (v : HubEntry) (hne : k2 ≠ k) :
    lookupHub (setHub l k v) k2 = lookupHub l k2 := by
  unfold setHub
  split
  · exact lookupHub_map_set_other l k k2 v hne
  · exact lookupHub_append_other l k k2 v hne

theorem startHub_hubId (e : HubEntry) : (startHub e).hubId = e.hubId := by
  unfold startHub
  split
  · rfl
  · rfl

theorem stepHub_attach_lookup_same (r : Registry) (k : String) :
    lookupHub (stepHub r (HubEv.attach k)).hubs k =
      some (startHub ((lookupHub r.hubs k).getD
        { hubId := r.nextId, producerRunning := false, spawnCount := 0 })) := by
  unfold stepHub get_or_create_hub
  cases h : lookupHub r.hubs k with
  | some e =>
    simp only [h, Option.getD_some]
    exact lookupHub_setHub_self _ _ _
  | none =>
    simp only [h, Option.getD_none]
    exact lookupHub_setHub_self _ _ _

theorem stepHub_attach_lookup_other (r : Registry) (k k2 : String)
    (hne : k ≠ k2) :
    lookupHub (stepHub r (HubEv.attach k2)).hubs k = lookupHub r.hubs k := by
  unfold stepHub get_or_create_hub
  cases h : lookupHub r.hubs k2 with
  | some e =>
    simp only [h]
    exact lookupHub_setHub_other _ _ _ _ hne
  | none =>
    simp only [h]
    exact lookupHub_setHub_other _ _ _ _ hne

theorem get_or_create_fst (r : Registry) (k : String) :
    (get_or_create_hub r k).1 =
      ((lookupHub r.hubs k).getD
        { hubId := r.nextId, producerRunning := false, spawnCount := 0 }).hubId := by
  unfold get_or_create_hub
  cases h : lookupHub r.hubs k with
  | some e => simp [h]
  | none => simp [h]

theorem get_or_create_same (r : Registry) (k : String) :
    (get_or_create_hub ((get_or_create_hub r k).2) k).1 =
      (get_or_create_hub r k).1 := by
  have hl : lookupHub ((get_or_create_hub r k).2).hubs k =
      some (startHub ((lookupHub r.hubs k).getD
        { hubId := r.nextId, producerRunning := false, spawnCount := 0 })) :=
    stepHub_attach_lookup_same r k
  rw [get_or_create_fst, get_or_create_fst, hl]
  simp only [Option.getD_some]
  exact startHub_hubId _

theorem startHub_of_running (e : HubEntry) (h : e.producerRunning = true) :
    startHub e = e := by
  unfold startHub
  rw [h]
  rfl

theorem runHubs_attach_only (evs : List HubEv) (k : String) :
    ∀ r : Registry, evs.all evIsAttach = true → GoodFor r k →
    GoodFor (runHubs r evs) k ∧
    ((lookupHub (runHubs r evs).hubs k).isSome = true ↔
      HubEv.attach k ∈ evs ∨ (lookupHub r.hubs k).isSome = true) := by
  induction evs with
  | nil =>
    intro r hat hg
    refine ⟨hg, ?_⟩
    simp [runHubs]
  | cons ev rest ih =>
    intro r hat hg
    rw [List.all_cons, Bool.and_eq_true] at hat
    obtain ⟨h1, hat2⟩ := hat
    cases ev with
    | complete k2 => simp [evIsAttach] at h1
    | attach k2 =>
      simp only [runHubs]
      by_cases hk : k2 = k
      · subst hk
        have hstep := stepHub_attach_lookup_same r k2
        have hg2 : GoodFor (stepHub r (HubEv.attach k2)) k2 := by
          intro e he
          rw [hstep] at he
          have he2 := Option.some.inj he
          cases h0 : lookupHub r.hubs k2 with
          | none =>
            rw [h0] at he2
            rw [← he2]
            exact ⟨rfl, rfl⟩
          | some e1 =>
            obtain ⟨hr, hs⟩ := hg e1 h0
            rw [h0, Option.getD_some, startHub_of_running e1 hr] at he2
            rw [← he2]
            exact ⟨hr, hs⟩
        obtain ⟨hgf, hiff⟩ := ih (stepHub r (HubEv.attach k2)) hat2 hg2
        have hsome : (lookupHub (stepHub r (HubEv.attach k2)).hubs k2).isSome = true := by
          rw [hstep]
          rfl
        refine ⟨hgf, ?_, ?_⟩
        · intro _
          exact Or.inl (List.mem_cons_self _ _)
        · intro _
          exact hiff.mpr (Or.inr hsome)
      · have hstep : lookupHub (stepHub r (HubEv.attach k2)).hubs k =
            lookupHub r.hubs k :=
          stepHub_attach_lookup_other r k k2 (fun h => hk h.symm)
        have hg2 : GoodFor (stepHub r (HubEv.attach k2)) k := by
          intro e he
          rw [hstep] at he
          exact hg e he
        obtain ⟨hgf, hiff⟩ := ih (stepHub r (HubEv.attach k2)) hat2 hg2
        refine ⟨hgf, ?_⟩
        rw [hiff, hstep]
        constructor
        · intro h
          rcases h with h | h
          · exact Or.inl (List.mem_cons_of_mem _ h)
          · exact Or.inr h
        · intro h
          rcases h with h | h
          · rcases List.mem_cons.mp h with heq | hm
            · exfalso
              injection heq with h3
              exact hk h3.symm
            · exact Or.inl hm
          · exact Or.inr h

theorem GoodFor_empty (k : String) : GoodFor emptyRegistry k := by
  intro e he
  simp [lookupHub, emptyRegistry] at he

theorem spawns_attach_only (evs : List HubEv) (k : String)
    (hat : evs.all evIsAttach = true) :
    spawnsOf (runHubs emptyRegistry evs) k =
      (if HubEv.attach k ∈ evs then 1 else 0) := by
  obtain ⟨hgf, hiff⟩ := runHubs_attach_only evs k emptyRegistry hat (GoodFor_empty k)
  unfold spawnsOf
  by_cases hm : HubEv.attach k ∈ evs
  · rw [if_pos hm]
    have hsome : (lookupHub (runHubs emptyRegistry evs).hubs k).isSome = true :=
      hiff.mpr (Or.inl hm)
    cases hl : lookupHub (runHubs emptyRegistry evs).hubs k with
    | none =>
      rw [hl] at hsome
      simp at hsome
    | some e =>
      exact (hgf e hl).2
  · rw [if_neg hm]
    cases hl : lookupHub (runHubs emptyRegistry evs).hubs k with
    | none => rfl
    | some e =>
      exfalso
      have hsome : (lookupHub (runHubs emptyRegistry evs).hubs k).isSome = true := by
        rw [hl]
        rfl
      rcases hiff.mp hsome with h | h
      · exact hm h
      · simp [lookupHub, emptyRegistry] at h

/-- C5: in any trace of concurrent attach requests with no producer
completion, the hub for key `k` has spawned exactly one producer task when
some request attached to `k` and none otherwise; moreover a further
request for the same key obtains the same hub identity from the registry
as the request before it. -/
theorem C5_single_producer (evs : List HubEv) (k : String)
    (hat : evs.all evIsAttach = true) :
    spawnsOf (runHubs emptyRegistry evs) k =
      (if HubEv.attach k ∈ evs then 1 else 0) ∧
    (get_or_create_hub ((get_or_create_hub (runHubs emptyRegistry evs) k).2) k).1 =
      (get_or_create_hub (runHubs emptyRegistry evs) k).1 :=
  ⟨spawns_attach_only evs k hat, get_or_create_same _ _⟩

/-- Witness for C5_single_producer: two concurrent requests for the same
file-id identity spawn one producer task. -/
theorem C5_witness :
    spawnsOf (runHubs emptyRegistry
        [HubEv.attach (hub_key "abc" none none),
         HubEv.attach (hub_key "abc" none none)]) (hub_key "abc" none none) =
      (if HubEv.attach (hub_key "abc" none none) ∈
          [HubEv.attach (hub_key "abc" none none),
           HubEv.attach (hub_key "abc" none none)] then 1 else 0) ∧
    (get_or_create_hub ((get_or_create_hub (runHubs emptyRegistry
        [HubEv.attach (hub_key "abc" none none),
         HubEv.attach (hub_key "abc" none none)]) (hub_key "abc" none none)).2)
      (hub_key "abc" none none)).1 =
      (get_or_create_hub (runHubs emptyRegistry
        [HubEv.attach (hub_key "abc" none none),
         HubEv.attach (hub_key "abc" none none)]) (hub_key "abc" none none)).1 :=
  C5_single_producer
    [HubEv.attach (hub_key "abc" none none),
     HubEv.attach (hub_key "abc" none none)]
    (hub_key "abc" none none) (by decide)

theorem lookupCons_append_none (l : List (Nat × Nat)) (k : Nat) (v : Nat)
    (h : ∀ kv ∈ l, kv.1 ≠ k) :
    lookupCons (l ++ [(k, v)]) k = some v := by
  induction l with
  | nil => simp [lookupCons]
  | cons a l' ih =>
    simp only [List.cons_append, lookupCons]
    rw [if_neg (h a (List.mem_cons_self _ _))]
    exact ih (fun kv hkv => h kv (List.mem_cons_of_mem _ hkv))

theorem lookupCons_append_other (l : List (Nat × Nat)) (k k2 : Nat) (v : Nat)
    (hne : k2 ≠ k) :
    lookupCons (l ++ [(k, v)]) k2 = lookupCons l k2 := by
  induction l with
  | nil =>
    simp only [List.nil_append, lookupCons]
    rw [if_neg (fun h => hne h.symm)]
  | cons a l' ih =>
    simp only [List.cons_append, lookupCons]
    by_cases hb : a.1 = k2
    · rw [if_pos hb, if_pos hb]
    · rw [if_neg hb, if_neg hb]
      exact ih

theorem lookupCons_map_set_self (l : List (Nat × Nat)) (k v : Nat)
    (h : l.any (fun kv => kv.1 == k) = true) :
    lookupCons (l.map (fun kv => if kv.1 = k then (k, v) else kv)) k = some v := by
  induction l with
  | nil => simp at h
  | cons a l' ih =>
    by_cases ha : a.1 = k
    · rw [List.map_cons, if_pos ha]
      simp [lookupCons]
    · have h2 : l'.any (fun kv => kv.1 == k) = true := by
        simp only [List.any_cons] at h
        rcases (Bool.or_eq_true _ _).mp h with h1 | h1
        · exact absurd (eq_of_beq h1) ha
        · exact h1
      rw [List.map_cons, if_neg ha]
      simp only [lookupCons]
      rw [if_neg ha]
      exact ih h2

theorem lookupCons_map_set_other (l : List (Nat × Nat)) (k k2 v : Nat)
    (hne : k2 ≠ k) :
    lookupCons (l.map (fun kv => if kv.1 = k then (k, v) else kv)) k2 =
      lookupCons l k2 := by
  induction l with
  | nil => rfl
  | cons a l' ih =>
    by_cases ha : a.1 = k
    · have hk2 : ¬ ((k, v).1 = k2) := fun h => hne h.symm
      have ha2 : ¬ (a.1 = k2) := fun h => hne (by rw [← h]; exact ha)
      rw [List.map_cons, if_pos ha]
      simp only [lookupCons]
      rw [if_neg hk2, if_neg ha2]
      exact ih
    · rw [List.map_cons, if_neg ha]
      simp only [lookupCons]
      by_cases hb : a.1 = k2
      · rw [if_pos hb, if_pos hb]
      · rw [if_neg hb, if_neg hb]
        exact ih

theorem lookupCons_setCons_self (l : List (Nat × Nat)) (k v : Nat) :
    lookupCons (setCons l k v) k = some v := by
  unfold setCons
  split
  · exact lookupCons_map_set_self l k v (by assumption)
  · apply lookupCons_append_none
    rename_i hany
    intro kv hkv hk
    apply hany
    rw [List.any_eq_true]
    exact ⟨kv, hkv, by simp [hk]⟩

theorem lookupCons_setCons_other (l : List (Nat × Nat)) (k k2 v : Nat)
    (hne : k2 ≠ k) :
    lookupCons (setCons l k v) k2 = lookupCons l k2 := by
  unfold setCons
  split
  · exact lookupCons_map_set_other l k k2 v hne
  · exact lookupCons_append_other l k k2 v hne

theorem lookupCons_erase_self (l : List (Nat × Nat)) (k : Nat) :
    lookupCons (eraseCons l k) k = none := by
  induction l with
  | nil => rfl
  | cons a l' ih =>
    unfold eraseCons
    rw [List.filter_cons]
    by_cases ha : a.1 = k
    · rw [if_neg (by simp [ha])]
      exact ih
    · rw [if_pos (by simp [ha])]
      simp only [lookupCons]
      rw [if_neg ha]
      exact ih

theorem lookupCons_erase_other (l : List (Nat × Nat)) (k k2 : Nat)
    (hne : k2 ≠ k) :
    lookupCons (eraseCons l k) k2 = lookupCons l k2 := by
  induction l with
  | nil => rfl
  | cons a l' ih =>
    unfold eraseCons
    rw [List.filter_cons]
    by_cases ha : a.1 = k
    · rw [if_neg (by simp [ha])]
      simp only [lookupCons]
      rw [if_neg (fun h => hne (by rw [← h]; exact ha))]
      exact ih
    · rw [if_pos (by simp [ha])]
      simp only [lookupCons]
      by_cases hb : a.1 = k2
      · rw [if_pos hb, if_pos hb]
      · rw [if_neg hb, if_neg hb]
        exact ih

theorem findChunk_mem (offset : Nat) (l : List Chunk) (c : Chunk)
    (h : findChunk offset l = some c) : c ∈ l := by
  induction l with
  | nil => simp [findChunk] at h
  | cons a rest ih =>
    unfold findChunk at h
    split at h
    · exact List.mem_cons_of_mem _ (ih h)
    · split at h
      · simp at h
      · exact List.mem_cons.mpr (Or.inl (Option.some.inj h).symm)

theorem findChunk_spec (offset : Nat) (l : List Chunk) (c : Chunk)
    (h : findChunk offset l = some c) :
    c.1 ≤ offset ∧ offset < c.1 + c.2.length := by
  induction l with
  | nil => simp [findChunk] at h
  | cons a rest ih =>
    unfold findChunk at h
    split at h
    · exact ih h
    · rename_i h1
      split at h
      · simp at h
      · rename_i h2
        obtain rfl : a = c := Option.some.inj h
        omega

theorem slice_append (l m : List Nat) (a n : Nat) (h : a + n ≤ l.length) :
    ((l ++ m).drop a).take n = (l.drop a).take n := by
  rw [List.drop_append_eq_append_drop]
  have h1 : a - l.length = 0 := by omega
  rw [h1, List.drop_zero, List.take_append_eq_append_take]
  have h2 : n - (l.drop a).length = 0 := by
    rw [List.length_drop]
    omega
  rw [h2, List.take_zero, List.append_nil]

theorem take_drop_concat (P : List Nat) (s y o : Nat) :
    (P.drop s).take y ++ (P.drop (s + y)).take o = (P.drop s).take (y + o) := by
  rw [List.take_add]
  congr 1
  rw [List.drop_drop]

theorem SliceWF_subset (P : List Nat) (l1 l2 : List Chunk)
    (hsub : ∀ c ∈ l2, c ∈ l1) (h : SliceWF P l1) : SliceWF P l2 :=
  fun c hc => h c (hsub c hc)

theorem gc_locked_chunks_mem (s : HubState) :
    ∀ c ∈ (gc_locked s).chunks, c ∈ s.chunks := by
  intro c hc
  rcases gc_locked_chunks_cases s with h | h
  · rw [h, gcPhase1_chunks] at hc
    exact dropChunksBelow_mem _ _ c hc
  · rw [h, gcPhase1_chunks] at hc
    exact dropChunksBelow_mem _ _ c (dropChunksBelow_mem _ _ c hc)

theorem appendChunk_totalWritten (s : HubState) (data : List Nat)
    (h : data ≠ []) :
    (appendChunk s data).totalWritten = s.totalWritten + data.length := by
  unfold appendChunk
  rw [if_neg h, gc_locked_totalWritten]

theorem appendChunk_consumers (s : HubState) (data : List Nat) :
    (appendChunk s data).consumers = s.consumers := by
  unfold appendChunk
  split
  · rfl
  · rw [gc_locked_consumers]

theorem appendChunk_chunks_mem (s : HubState) (data : List Nat)
    (h : data ≠ []) :
    ∀ c ∈ (appendChunk s data).chunks,
      c ∈ s.chunks ++ [(s.totalWritten, data)] := by
  unfold appendChunk
  rw [if_neg h]
  intro c hc
  exact gc_locked_chunks_mem _ c hc

theorem SysInv_finishWith (σ : Sys) (res : CRes)
    (h1 : σ.hub.totalWritten = σ.produced.length)
    (h2 : SliceWF σ.produced σ.hub.chunks)
    (heof : res = CRes.eof →
      σ.yielded = σ.produced.drop σ.startByte ∧ σ.hub.done = true) :
    SysInv (finishWith σ res) := by
  unfold finishWith SysInv
  refine ⟨?_, ?_, ?_, ?_, ?_⟩
  · dsimp only
    rw [gc_locked_totalWritten]
    exact h1
  · dsimp only
    apply SliceWF_subset _ _ _ (gc_locked_chunks_mem _)
    exact h2
  · intro off hoff
    dsimp only at hoff
    rw [gc_locked_consumers] at hoff
    dsimp only at hoff
    rw [lookupCons_erase_self] at hoff
    exact absurd hoff (by simp)
  · intro hr
    dsimp only at hr
    exact absurd hr (by simp)
  · intro hr
    dsimp only at hr
    obtain ⟨hy, hd⟩ := heof (Option.some.inj hr)
    refine ⟨hy, ?_⟩
    dsimp only
    rw [gc_locked_done]
    exact hd

theorem stepSys_inv (σ : Sys) (ev : SysEv) (h : SysInv σ) :
    SysInv (stepSys σ ev) := by
  obtain ⟨h1, h2, h3, h4, h5⟩ := h
  cases ev with
  | append data =>
    simp only [stepSys]
    split
    · exact ⟨h1, h2, h3, h4, h5⟩
    · rename_i hg
      push_neg at hg
      obtain ⟨hd, he, hne⟩ := hg
      unfold SysInv
      refine ⟨?_, ?_, ?_, ?_, ?_⟩
      · dsimp only
        rw [appendChunk_totalWritten _ _ hne, h1, List.length_append]
      · dsimp only
        apply SliceWF_subset _ _ _ (appendChunk_chunks_mem _ _ hne)
        intro c hc
        rcases List.mem_append.mp hc with hm | hm
        · obtain ⟨hs, hb⟩ := h2 c hm
          constructor
          · rw [slice_append _ _ _ _ hb]
            exact hs
          · rw [List.length_append]
            omega
        · simp only [List.mem_singleton] at hm
          subst hm
          constructor
          · show data = ((σ.produced ++ data).drop σ.hub.totalWritten).take data.length
            rw [h1, List.drop_left, List.take_length]
          · show σ.hub.totalWritten + data.length ≤ (σ.produced ++ data).length
            rw [h1, List.length_append]
      · intro off hoff
        dsimp only at hoff
        rw [appendChunk_consumers] at hoff
        obtain ⟨ha, hb, hc⟩ := h3 off hoff
        dsimp only
        refine ⟨ha, ?_, ?_⟩
        · rcases hc with hcase | hcase
          · rw [slice_append _ _ _ _ hcase]
            exact hb
          · simp [hcase]
        · rcases hc with hcase | hcase
          · left
            rw [List.length_append]
            omega
          · right
            exact hcase
      · intro hr
        dsimp only at hr
        dsimp only
        rw [appendChunk_consumers]
        exact h4 hr
      · intro hr
        dsimp only at hr
        exact absurd (h5 hr).2 hd
  | fail =>
    simp only [stepSys]
    split
    · exact ⟨h1, h2, h3, h4, h5⟩
    · unfold SysInv
      exact ⟨h1, h2, h3, h4, fun hr => ⟨(h5 hr).1, rfl⟩⟩
  | finish =>
    simp only [stepSys]
    split
    · exact ⟨h1, h2, h3, h4, h5⟩
    · unfold SysInv
      exact ⟨h1, h2, h3, h4, fun hr => ⟨(h5 hr).1, rfl⟩⟩
  | setOther oid off =>
    simp only [stepSys]
    split
    · exact ⟨h1, h2, h3, h4, h5⟩
    · rename_i hoid
      have hne : (0 : Nat) ≠ oid := fun hh => hoid hh.symm
      unfold SysInv
      refine ⟨?_, ?_, ?_, ?_, ?_⟩
      · dsimp only
        rw [gc_locked_totalWritten]
        exact h1
      · dsimp only
        apply SliceWF_subset _ _ _ (gc_locked_chunks_mem _)
        exact h2
      · intro o2 ho2
        dsimp only at ho2
        rw [gc_locked_consumers] at ho2
        dsimp only at ho2
        rw [lookupCons_setCons_other _ _ _ _ hne] at ho2
        exact h3 o2 ho2
      · intro hr
        dsimp only at hr
        dsimp only
        rw [gc_locked_consumers]
        dsimp only
        rw [lookupCons_setCons_other _ _ _ _ hne]
        exact h4 hr
      · intro hr
        dsimp only at hr
        refine ⟨(h5 hr).1, ?_⟩
        dsimp only
        rw [gc_locked_done]
        exact (h5 hr).2
  | dropOther oid =>
    simp only [stepSys]
    split
    · exact ⟨h1, h2, h3, h4, h5⟩
    · rename_i hoid
      have hne : (0 : Nat) ≠ oid := fun hh => hoid hh.symm
      unfold SysInv
      refine ⟨?_, ?_, ?_, ?_, ?_⟩
      · dsimp only
        rw [gc_locked_totalWritten]
        exact h1
      · dsimp only
        apply SliceWF_subset _ _ _ (gc_locked_chunks_mem _)
        exact h2
      · intro o2 ho2
        dsimp only at ho2
        rw [gc_locked_consumers] at ho2
        dsimp only at ho2
        rw [lookupCons_erase_other _ _ _ hne] at ho2
        exact h3 o2 ho2
      · intro hr
        dsimp only at hr
        dsimp only
        rw [gc_locked_consumers]
        dsimp only
        rw [lookupCons_erase_other _ _ _ hne]
        exact h4 hr
      · intro hr
        dsimp only at hr
        refine ⟨(h5 hr).1, ?_⟩
        dsimp only
        rw [gc_locked_done]
        exact (h5 hr).2
  | step =>
    simp only [stepSys]
    split
    · rename_i hr0
      obtain ⟨off, hoff⟩ := Option.isSome_iff_exists.mp (h4 hr0)
      unfold consumerStep
      dsimp only
      split
      · exact SysInv_finishWith σ _ h1 h2 (fun hh => nomatch hh)
      · split
        · exact SysInv_finishWith σ _ h1 h2 (fun hh => nomatch hh)
        · rw [hoff]
          simp only [Option.getD_some]
          split
          · exact SysInv_finishWith σ _ h1 h2 (fun hh => nomatch hh)
          · split
            · rename_i hdone
              apply SysInv_finishWith σ _ h1 h2
              intro hres
              refine ⟨?_, hdone.1⟩
              obtain ⟨ha, hb, hc⟩ := h3 off hoff
              have hlen : σ.produced.length ≤ off := by
                rw [← h1]
                exact hdone.2
              rw [hb]
              apply List.take_of_length_le
              rw [List.length_drop]
              omega
            · split
              · exact ⟨h1, h2, h3, h4, h5⟩
              · rename_i c hfind
                obtain ⟨ha, hb, hc⟩ := h3 off hoff
                obtain ⟨hc1, hc2⟩ := findChunk_spec _ _ _ hfind
                obtain ⟨hslice, hbound⟩ := h2 c (findChunk_mem _ _ _ hfind)
                have holen : (c.2.drop (off - c.1)).length =
                    c.2.length - (off - c.1) := List.length_drop _ _
                have hout : c.2.drop (off - c.1) =
                    (σ.produced.drop off).take (c.2.length - (off - c.1)) := by
                  conv_lhs => rw [hslice]
                  rw [List.drop_take, List.drop_drop]
                  have hoo : c.1 + (off - c.1) = off := by omega
                  rw [hoo]
                unfold SysInv
                refine ⟨?_, ?_, ?_, ?_, ?_⟩
                · dsimp only
                  rw [gc_locked_totalWritten]
                  exact h1
                · dsimp only
                  apply SliceWF_subset _ _ _ (gc_locked_chunks_mem _)
                  exact h2
                · intro o2 ho2
                  dsimp only at ho2
                  rw [gc_locked_consumers] at ho2
                  dsimp only at ho2
                  rw [lookupCons_setCons_self] at ho2
                  have ho2e := Option.some.inj ho2
                  dsimp only
                  refine ⟨?_, ?_, ?_⟩
                  · rw [← ho2e, List.length_append]
                    omega
                  · have hout2 : c.2.drop (off - c.1) =
                        (σ.produced.drop off).take ((c.2.drop (off - c.1)).length) := by
                      rw [holen]
                      exact hout
                    have hlen2 : (σ.yielded ++ c.2.drop (off - c.1)).length =
                        σ.yielded.length + (c.2.drop (off - c.1)).length :=
                      List.length_append _ _
                    rw [hlen2, ← take_drop_concat σ.produced σ.startByte
                      σ.yielded.length ((c.2.drop (off - c.1)).length)]
                    congr 1
                    rw [← ha]
                    exact hout2
                  · left
                    rw [List.length_append]
                    omega
                · intro hr
                  dsimp only
                  rw [gc_locked_consumers]
                  dsimp only
                  rw [lookupCons_setCons_self]
                  rfl
                · intro hr
                  dsimp only at hr
                  rw [hr0] at hr
                  exact absurd hr (by simp)
    · exact ⟨h1, h2, h3, h4, h5⟩

theorem stepSys_startByte (σ : Sys) (ev : SysEv) :
    (stepSys σ ev).startByte = σ.startByte := by
  cases ev with
  | append data =>
    simp only [stepSys]
    split <;> rfl
  | fail =>
    simp only [stepSys]
    split <;> rfl
  | finish =>
    simp only [stepSys]
    split <;> rfl
  | setOther oid off =>
    simp only [stepSys]
    split <;> rfl
  | dropOther oid =>
    simp only [stepSys]
    split <;> rfl
  | step =>
    simp only [stepSys]
    split
    · unfold consumerStep finishWith
      dsimp only
      split
      · rfl
      · split
        · rfl
        · split
          · rfl
          · split
            · rfl
            · split
              · rfl
              · rfl
    · rfl

theorem runSys_inv (evs : List SysEv) (σ : Sys) (h : SysInv σ) :
    SysInv (runSys σ evs) := by
  induction evs generalizing σ with
  | nil => exact h
  | cons ev rest ih => exact ih _ (stepSys_inv σ ev h)

theorem runSys_startByte (evs : List SysEv) (σ : Sys) :
    (runSys σ evs).startByte = σ.startByte := by
  induction evs generalizing σ with
  | nil => rfl
  | cons ev rest ih =>
    rw [runSys, ih, stepSys_startByte]

theorem initSys_inv (start : Nat) : SysInv (initSys start) := by
  unfold SysInv initSys
  refine ⟨rfl, ?_, ?_, ?_, ?_⟩
  · intro c hc
    simp at hc
  · intro off hoff
    dsimp only at hoff
    simp only [lookupCons, if_pos rfl] at hoff
    have hoe := Option.some.inj hoff
    subst hoe
    refine ⟨by simp, by simp, Or.inr rfl⟩
  · intro hh
    rfl
  · intro hh
    exact absurd hh (by simp)

/-- C1: in every interleaving of producer chunk arrivals, producer
completion or failure, other consumers coming and going, and loop
iterations of a tracked consumer started at offset `start` on a fresh hub,
if the tracked consumer ends with a normal EOF return (no behind-window
signal, no producer error), then the bytes it yielded, concatenated, are
exactly the bytes the producer appended from offset `start` to EOF — no
gaps, no duplicates, no reordering. -/
theorem C1_consumer_byte_exact (start : Nat) (evs : List SysEv)
    (hres : (runSys (initSys start) evs).result = some CRes.eof) :
    (runSys (initSys start) evs).yielded =
      (runSys (initSys start) evs).produced.drop start := by
  have hinv := runSys_inv evs (initSys start) (initSys_inv start)
  obtain ⟨-, -, -, -, h5⟩ := hinv
  rw [(h5 hres).1, runSys_startByte]
  rfl

/-- Witness for C1_consumer_byte_exact: a producer appending three bytes
and finishing, with a consumer started at offset 1 yielding the last
two. -/
theorem C1_witness :
    (runSys (initSys 1)
      [SysEv.append [10, 20, 30], SysEv.step, SysEv.finish, SysEv.step]).result =
        some CRes.eof ∧
    (runSys (initSys 1)
      [SysEv.append [10, 20, 30], SysEv.step, SysEv.finish, SysEv.step]).yielded =
      ((runSys (initSys 1)
        [SysEv.append [10, 20, 30], SysEv.step, SysEv.finish,
          SysEv.step]).produced.drop 1) :=
  ⟨by decide,
   C1_consumer_byte_exact 1
     [SysEv.append [10, 20, 30], SysEv.step, SysEv.finish, SysEv.step]
     (by decide)⟩

end StreamXBot
